import Mathlib

/-!
# Verification of the fee-schedule reconstruction core

Shallow embedding of `src/add_product_structure.py` from the
financial-advisor-fee-analysis repository: tier collection,
multi-schedule detection, the four extraction phases, the product
validator (both definitions, the second of which shadows the first at
module level, so it is the effective one), the product formatter, and
the driver-level fragmentation reconciliation in `main`.

Modelling conventions, fixed once and used throughout:

* Python floats are modelled by `PVal`: NaN, -inf, an exact rational, or
  +inf.  Float arithmetic is modelled exactly over `ℚ` (the source's
  tolerance products such as `x * 0.001` become `x * (1/1000)`); IEEE
  comparison semantics are kept: every comparison involving NaN is false,
  and `!=` involving NaN is true.
* `pd.isna` on these values is `= PVal.nan` (upstream guarantees numeric
  or absent values, so the only NA marker reaching this code is NaN).
* Python's stable `sorted`/`list.sort` is modelled by a stable insertion
  sort (`pySortWith`); it agrees with CPython whenever the keys are
  totally ordered by `<`, which holds for every key order relevant to a
  claim, and is a fixed deterministic completion otherwise.
* The phases' "less than / up to / under" pre-step rewrites tiers whose
  lower-bound *text* matches those phrases; upstream guarantees the bound
  is already numeric and `str(float)` never contains those substrings, so
  the step is the identity here and is omitted from the phase bodies.
* Python dict/set behaviour over NaN is modelled on the assumption that
  distinct tiers hold distinct NaN objects (as produced by per-access
  numpy scalar extraction): a NaN-containing key never equals another
  key, and every NaN inserted into a set is a fresh member.
* Any list/dict access whose safety is not structural (it relies on a
  data invariant) is translated through `Option`, `none` standing for the
  `IndexError`/`KeyError` the source would raise there.
-/

/-- A Python float value: NaN, negative infinity, a finite value
(modelled exactly as a rational), or positive infinity. -/
inductive PVal where
  | nan : PVal
  | ninf : PVal
  | fin (q : ℚ) : PVal
  | inf : PVal
deriving DecidableEq, Repr

namespace PVal

/-- Python `<` on floats: any comparison with NaN is false. -/
def pyLt : PVal → PVal → Bool
  | nan, _ => false
  | _, nan => false
  | ninf, ninf => false
  | ninf, _ => true
  | _, ninf => false
  | inf, _ => false
  | fin _, inf => true
  | fin a, fin b => decide (a < b)

/-- Python `<=` on floats: any comparison with NaN is false. -/
def pyLe : PVal → PVal → Bool
  | nan, _ => false
  | _, nan => false
  | ninf, _ => true
  | _, ninf => false
  | _, inf => true
  | inf, _ => false
  | fin a, fin b => decide (a ≤ b)

/-- Python `==` on floats: NaN is equal to nothing, including itself. -/
def pyEq : PVal → PVal → Bool
  | nan, _ => false
  | _, nan => false
  | ninf, ninf => true
  | inf, inf => true
  | fin a, fin b => decide (a = b)
  | _, _ => false

/-- Python `!=` on floats: true whenever either side is NaN. -/
def pyNe (a b : PVal) : Bool := !pyEq a b

/-- Python `>` on floats. -/
def pyGt (a b : PVal) : Bool := pyLt b a

/-- Python `>=` on floats. -/
def pyGe (a b : PVal) : Bool := pyLe b a

/-- Float negation. -/
def pyNeg : PVal → PVal
  | nan => nan
  | ninf => inf
  | inf => ninf
  | fin q => fin (-q)

/-- Float addition; `inf + (-inf)` is NaN. -/
def pyAdd : PVal → PVal → PVal
  | nan, _ => nan
  | _, nan => nan
  | inf, ninf => nan
  | ninf, inf => nan
  | inf, _ => inf
  | _, inf => inf
  | ninf, _ => ninf
  | _, ninf => ninf
  | fin a, fin b => fin (a + b)

/-- Float subtraction. -/
def pySub (a b : PVal) : PVal := pyAdd a (pyNeg b)

/-- Float multiplication; `inf * 0` is NaN. -/
def pyMul : PVal → PVal → PVal
  | nan, _ => nan
  | _, nan => nan
  | inf, inf => inf
  | inf, ninf => ninf
  | ninf, inf => ninf
  | ninf, ninf => inf
  | inf, fin q => if q = 0 then nan else if 0 < q then inf else ninf
  | fin q, inf => if q = 0 then nan else if 0 < q then inf else ninf
  | ninf, fin q => if q = 0 then nan else if 0 < q then ninf else inf
  | fin q, ninf => if q = 0 then nan else if 0 < q then ninf else inf
  | fin a, fin b => fin (a * b)

/-- Float absolute value. -/
def pyAbs : PVal → PVal
  | nan => nan
  | ninf => inf
  | inf => inf
  | fin q => fin |q|

/-- Python `max(a, b)`: returns `b` if `b > a`, else `a` (so `a` when the
comparison involves NaN). -/
def pyMax (a b : PVal) : PVal := if pyGt b a then b else a

/-- `pd.isna` for values reaching this module (numeric or NaN). -/
def isna (a : PVal) : Bool := a = nan

end PVal

open PVal

/-! ## Python's stable sort -/

/-- Insert `x` into `l` just before the first element `y` with
`lt x y`; elements `x` does not strictly precede are passed over, so an
element inserted later comes after all its ties. -/
def pyOrderedInsert (lt : α → α → Bool) (x : α) : List α → List α
  | [] => [x]
  | y :: ys => if lt x y then x :: y :: ys else y :: pyOrderedInsert lt x ys

/-- Left fold of `pyOrderedInsert`: processing the input left to right
and inserting after ties makes this a stable ascending sort, matching
CPython's `sorted` for totally `<`-ordered keys. -/
def pySortAux (lt : α → α → Bool) (acc : List α) : List α → List α
  | [] => acc
  | x :: xs => pySortAux lt (pyOrderedInsert lt x acc) xs

/-- Python `sorted(l, key=...)` where `lt a b` decides `key a < key b`. -/
def pySortWith (lt : α → α → Bool) (l : List α) : List α :=
  pySortAux lt [] l

theorem pyOrderedInsert_perm (lt : α → α → Bool) (x : α) (l : List α) :
    List.Perm (pyOrderedInsert lt x l) (x :: l) := by
  induction l with
  | nil => simp [pyOrderedInsert]
  | cons y ys ih =>
      simp only [pyOrderedInsert]
      by_cases h : lt x y = true
      · simp [h]
      · simp only [Bool.not_eq_true] at h
        simp only [h]
        exact (ih.cons y).trans (List.Perm.swap x y ys)

theorem pySortAux_perm (lt : α → α → Bool) (acc l : List α) :
    List.Perm (pySortAux lt acc l) (acc ++ l) := by
  induction l generalizing acc with
  | nil => simp [pySortAux]
  | cons x xs ih =>
      simp only [pySortAux]
      exact ((ih _).trans
        ((pyOrderedInsert_perm lt x acc).append_right xs)).trans
        List.perm_middle.symm

theorem pySortWith_perm (lt : α → α → Bool) (l : List α) :
    List.Perm (pySortWith lt l) l := pySortAux_perm lt [] l

theorem pySortWith_length (lt : α → α → Bool) (l : List α) :
    (pySortWith lt l).length = l.length :=
  (pySortWith_perm lt l).length_eq

theorem mem_pySortWith (lt : α → α → Bool) {x : α} {l : List α} :
    x ∈ pySortWith lt l ↔ x ∈ l :=
  (pySortWith_perm lt l).mem_iff

theorem pySortWith_eq_nil_iff (lt : α → α → Bool) {l : List α} :
    pySortWith lt l = [] ↔ l = [] := by
  constructor
  · intro h
    have := pySortWith_length lt l
    rw [h] at this
    exact List.length_eq_zero.mp this.symm
  · intro h; subst h; rfl

/-! ## Data model: Tier, Fee, Product, Record -/

/-- One raw threshold/fee slot as collected by `collect_tiers`:
original 1-based slot index, numeric bounds and fees (NaN = absent), and
the `is_range` flag. -/
structure Tier where
  index : ℕ
  lower : PVal
  upper : PVal
  fee_min : PVal
  fee_max : PVal
  is_range : Bool
deriving DecidableEq, Repr

/-- A fee entry of a product: Python `None`, a numeric fee, or a
fee-range string `"min-max"`. -/
inductive Fee where
  | nil : Fee
  | num (v : PVal) : Fee
  | str (s : String) : Fee
deriving DecidableEq, Repr

/-- A product dictionary.  `upper_bounds` is optional because the first
(shadowed) validator checks `"upper_bounds" in product`; every product
this module constructs carries `some`. -/
structure Product where
  thresholds : List PVal
  upper_bounds : Option (List PVal)
  fees : List Fee
deriving DecidableEq, Repr

/-- The five upstream columns of one slot of a record. -/
structure RawSlot where
  threshold_lower : PVal
  threshold_upper : PVal
  fee_pct_min : PVal
  fee_pct_max : PVal
  fee_is_range : Bool
deriving DecidableEq, Repr

/-- A record's eight `Annual fee threshold` slots (index `i` holds the
columns suffixed `i+1`). -/
def Record := Fin 8 → RawSlot

/-- A slot with every numeric column absent. -/
def emptySlot : RawSlot := ⟨PVal.nan, PVal.nan, PVal.nan, PVal.nan, false⟩

/-- `collect_tiers`: build a tier for each slot 1..8 unless both
threshold bounds are absent. -/
def collect_tiers (row : Record) : List Tier :=
  (List.finRange 8).filterMap (fun i =>
    let s := row i
    if isna s.threshold_lower && isna s.threshold_upper then none
    else some ⟨i.1 + 1, s.threshold_lower, s.threshold_upper,
               s.fee_pct_min, s.fee_pct_max, s.fee_is_range⟩)

/-- A tier whose fee is an ambiguous range:
`tier['is_range'] == True and tier['fee_min'] != tier['fee_max']`
(Python `!=`, so true when both fees are NaN). -/
def hasAmbig (t : Tier) : Bool := t.is_range && pyNe t.fee_min t.fee_max

/-! ## Python number-to-string formatting -/

/-- Round to the nearest integer, ties to even — the rounding of C's
`%.Nf` as applied to the (here exactly-modelled) float value. -/
def roundHalfEven (q : ℚ) : ℤ :=
  let f := ⌊q⌋
  let r := q - (f : ℚ)
  if r < 1/2 then f
  else if 1/2 < r then f + 1
  else if f % 2 = 0 then f else f + 1

/-- Left-pad a digit string with zeros to the given width. -/
def natPad (s : String) (width : ℕ) : String :=
  String.mk (List.replicate (width - s.length) '0') ++ s

/-- Python `f"{q:.Pf}"` for a nonnegative rational. -/
def formatFixedNonneg (prec : ℕ) (q : ℚ) : String :=
  let n := (roundHalfEven (q * (10 : ℚ) ^ prec)).toNat
  let ip := n / 10 ^ prec
  let fp := n % 10 ^ prec
  if prec = 0 then toString ip
  else toString ip ++ "." ++ natPad (toString fp) prec

/-- Python `f"{value:.Pf}"` on a float value. -/
def formatFixed (prec : ℕ) : PVal → String
  | PVal.nan => "nan"
  | PVal.inf => "inf"
  | PVal.ninf => "-inf"
  | PVal.fin q =>
      if q < 0 then "-" ++ formatFixedNonneg prec (-q) else formatFixedNonneg prec q

/-- Python `s.rstrip(c)`: drop every trailing occurrence of `c`. -/
def rstripChar (s : String) (c : Char) : String :=
  String.mk ((s.data.reverse.dropWhile (fun d => d = c)).reverse)

/-- Smallest exponent `k ≤ 40` with `den ∣ 10^k`, if any: the fee data
modelled here consists of decimal fractions, for which this exists. -/
def decExp (den : ℕ) : Option ℕ :=
  (List.range 41).find? (fun k => 10 ^ k % den == 0)

/-- Python `str(float)` restricted to the values this module constructs:
`"nan"`, `"inf"`, `"-inf"`, or the shortest exact decimal expansion with
at least one fractional digit (`str(5.0) = "5.0"`, `str(0.01) = "0.01"`).
For a rational with no terminating decimal expansion (which cannot arise
from a decimal float) we fall back to `num/den`; CPython would print a
17-significant-digit repr there. -/
def strOfQ (q : ℚ) : String :=
  let sgn := if q < 0 then "-" else ""
  let aq : ℚ := |q|
  match decExp aq.den with
  | some k =>
      let scaled := aq.num.toNat * 10 ^ k / aq.den
      let ip := scaled / 10 ^ k
      let fp := scaled % 10 ^ k
      if k = 0 then sgn ++ toString ip ++ ".0"
      else sgn ++ toString ip ++ "." ++ natPad (toString fp) k
  | none => sgn ++ toString aq.num ++ "/" ++ toString aq.den

/-- Python `str(float)` on a float value (see `strOfQ`). -/
def strOfPVal : PVal → String
  | PVal.nan => "nan"
  | PVal.inf => "inf"
  | PVal.ninf => "-inf"
  | PVal.fin q => strOfQ q

/-- Python `float(s)` restricted to plain decimal literals
(`"12"`, `"12."`, `".5"`, `"0.01"`, optional leading sign); other float
syntax (exponents, `"inf"`) makes the callers below fall back to the raw
string, matching the `except ValueError` path for the strings that do
not parse. -/
def parseFloat (s : String) : Option ℚ :=
  let core (cs : List Char) : Option ℚ :=
    let parts := (String.mk cs).splitOn "."
    match parts with
    | [a] =>
        if a.data ≠ [] && a.data.all Char.isDigit then
          some ((a.toNat! : ℚ))
        else none
    | [a, b] =>
        if (a.data ≠ [] || b.data ≠ []) && a.data.all Char.isDigit
            && b.data.all Char.isDigit then
          some ((a.toNat! : ℚ) + (b.toNat! : ℚ) / (10 : ℚ) ^ b.data.length)
        else none
    | _ => none
  match s.data with
  | '-' :: rest => (core rest).map (fun q => -q)
  | '+' :: rest => core rest
  | cs => core cs

/-! ## `format_threshold` and `format_percentage` -/

/-- `format_threshold`: empty for NaN, `"+"` for infinity, else a
dollar amount abbreviated with `K`/`M`/`B`. -/
def format_threshold (value : PVal) : String :=
  if isna value then ""
  else if value = PVal.inf then "+"
  else if pyGe value (PVal.fin 1000000000) then
    "$" ++ formatFixed 1 (pyMul value (PVal.fin (1/1000000000))) ++ "B"
  else if pyGe value (PVal.fin 1000000) then
    "$" ++ formatFixed 1 (pyMul value (PVal.fin (1/1000000))) ++ "M"
  else if pyGe value (PVal.fin 1000) then
    "$" ++ formatFixed 0 (pyMul value (PVal.fin (1/1000))) ++ "K"
  else "$" ++ formatFixed 0 value

/-- `format_percentage` on a float (or `None`, i.e. NaN) value — the
string branch of the source is only reachable when a caller passes a
string, which `format_product` never does.  Note the source bug kept
faithfully here: the `"%"` sits inside the f-string, so the two
`rstrip`s never strip anything and a second `"%"` is appended. -/
def format_percentage (value : PVal) : String :=
  if isna value then "N/A"
  else
    rstripChar (rstripChar (formatFixed 2 (pyMul value (PVal.fin 100)) ++ "%") '0') '.' ++ "%"

/-! ## `detect_multiple_fee_schedules` -/

/-- Python `==` on a `(lower, upper)` dict key: componentwise float
equality, so a key containing NaN matches no key (distinct NaN objects,
see the module header). -/
def pyKeyEq (a b : PVal × PVal) : Bool := pyEq a.1 b.1 && pyEq a.2 b.2

/-- `defaultdict` grouping of tiers by their `(lower, upper)` key, in
first-occurrence order; a NaN-containing key always opens a new group. -/
def insertTierGroup (gs : List ((PVal × PVal) × List Tier)) (t : Tier) :
    List ((PVal × PVal) × List Tier) :=
  match gs with
  | [] => [((t.lower, t.upper), [t])]
  | (k, g) :: rest =>
      if pyKeyEq k (t.lower, t.upper) then (k, g ++ [t]) :: rest
      else (k, g) :: insertTierGroup rest t

/-- All `(lower, upper)` groups of a tier list. -/
def tierGroups (tiers : List Tier) : List ((PVal × PVal) × List Tier) :=
  tiers.foldl insertTierGroup []

/-- A Python `set` of float values: membership by `==`, so every NaN
inserted is a fresh member. -/
def pySetInsert (s : List PVal) (v : PVal) : List PVal :=
  if s.any (fun x => pyEq x v) then s else s ++ [v]

/-- The `fees` set built for one tier group. -/
def feeSet (g : List Tier) : List PVal :=
  g.foldl (fun s t => pySetInsert s t.fee_min) []

/-- Check 1 of the detector: some threshold-range group has more than
one tier and more than one distinct `fee_min`. -/
def detectCheck1 (tiers : List Tier) : Bool :=
  (tierGroups tiers).any (fun kg => kg.2.length > 1 && (feeSet kg.2).length > 1)

/-- Adjacent-pair test over a list: some `l[i-1], l[i]` with `p` true. -/
def adjAny (p : α → α → Bool) (l : List α) : Bool :=
  (l.zip l.tail).any (fun x => p x.1 x.2)

/-- Check 2: tiers sorted by original index contain an adjacent pair
whose later `lower` is `<=` the earlier `lower`. -/
def detectCheck2 (tiers : List Tier) : Bool :=
  adjAny (fun prev cur => pyLe cur.lower prev.lower)
    (pySortWith (fun a b => decide (a.index < b.index)) tiers)

/-- Check 3: more than one tier with `lower == 0 and upper == 0`. -/
def detectCheck3 (tiers : List Tier) : Bool :=
  (tiers.filter (fun t =>
    pyEq t.lower (PVal.fin 0) && pyEq t.upper (PVal.fin 0))).length > 1

/-- Check 4: tiers sorted by `lower` contain an adjacent pair whose
later `fee_min` is `>` the earlier `fee_min`. -/
def detectCheck4 (tiers : List Tier) : Bool :=
  adjAny (fun prev cur => pyGt cur.fee_min prev.fee_min)
    (pySortWith (fun a b => pyLt a.lower b.lower) tiers)

/-- `detect_multiple_fee_schedules`. -/
def detect_multiple_fee_schedules (tiers : List Tier) : Bool :=
  if tiers.length ≤ 1 then false
  else detectCheck1 tiers || detectCheck2 tiers || detectCheck3 tiers
    || detectCheck4 tiers

/-! ## The two `validate_products` definitions -/

/-- The first `validate_products` (line 815), shadowed at module load by
the second definition and therefore never the one called. -/
def validate_products_first (products : List Product) : Bool :=
  !products.isEmpty && products.all (fun p =>
    !p.thresholds.isEmpty && !p.fees.isEmpty
    && p.thresholds.length == p.fees.length
    && (match p.upper_bounds with
        | some ub => ub.length == p.thresholds.length
        | none => true))

/-- The second `validate_products` (line 1243) — the effective one: all
three keys must be present, of equal length, and non-empty. -/
def validate_products (products : List Product) : Bool :=
  !products.isEmpty && products.all (fun p =>
    match p.upper_bounds with
    | none => false
    | some ub =>
        p.thresholds.length == ub.length && ub.length == p.fees.length
        && !p.thresholds.isEmpty && !ub.isEmpty && !p.fees.isEmpty)

/-! ## Shared phase helpers -/

/-- `enumerate` with a starting index. -/
def pyEnum (n : ℕ) : List α → List (ℕ × α)
  | [] => []
  | x :: xs => (n, x) :: pyEnum (n + 1) xs

/-- The key comparison of the phase sorts:
`key = lower if not isna(lower) else inf`. -/
def isnaLowerKeyLt (a b : Tier) : Bool :=
  pyLt (if isna a.lower then PVal.inf else a.lower)
       (if isna b.lower then PVal.inf else b.lower)

/-- `sorted(tiers, key=lambda x: lower if not isna else inf)`. -/
def sortTiersByLower (l : List Tier) : List Tier := pySortWith isnaLowerKeyLt l

/-- `sorted(tiers, key=lambda x: x['index'])`. -/
def sortTiersByIndex (l : List Tier) : List Tier :=
  pySortWith (fun a b => decide (a.index < b.index)) l

/-- Each element paired with the rest of the list after it — the slice
`l[i+1:]` that the extension loops iterate over from start index `i`. -/
def tierSuffixes : List Tier → List (Tier × List Tier)
  | [] => []
  | t :: ts => (t, ts) :: tierSuffixes ts

/-- Fee of a tier when written singly: `None` for NaN, else `fee_min`. -/
def plainFee (t : Tier) : Fee :=
  if isna t.fee_min then Fee.nil else Fee.num t.fee_min

/-- A product built from a group with no special range handling, kept
only if it has data (the group is non-empty). -/
def plainProductOf (g : List Tier) : List Product :=
  let p : Product := ⟨g.map (·.lower), some (g.map (·.upper)), g.map plainFee⟩
  if !p.thresholds.isEmpty && !p.fees.isEmpty then [p] else []

/-- Fee of a tier inside a consolidated range product: ambiguous ranges
become the string `f"{fee_min}-{fee_max}"`. -/
def rangeFee (t : Tier) : Fee :=
  if hasAmbig t then Fee.str (strOfPVal t.fee_min ++ "-" ++ strOfPVal t.fee_max)
  else plainFee t

/-- A single consolidated product showing range strings where present. -/
def consolidatedProductOf (g : List Tier) : List Product :=
  let p : Product := ⟨g.map (·.lower), some (g.map (·.upper)), g.map rangeFee⟩
  if !p.thresholds.isEmpty && !p.fees.isEmpty then [p] else []

/-- The two one-tier products (min fee, max fee) emitted for a single
tier carrying a genuine fee range. -/
def twoSingleProducts (t : Tier) : List Product :=
  [⟨[t.lower], some [t.upper], [Fee.num t.fee_min]⟩,
   ⟨[t.lower], some [t.upper], [Fee.num t.fee_max]⟩]

/-- The special-case test shared by phases 2, 3 and 4: exactly one tier,
`is_range`, numerically differing and non-NaN min/max fees. -/
def singleAmbigTier : List Tier → Option Tier
  | [t] =>
      if t.is_range && pyNe t.fee_min t.fee_max
          && !isna t.fee_min && !isna t.fee_max then some t
      else none
  | _ => none

/-- The shared per-group emission of phases 2, 3 and 4: a lone
genuinely-ranged tier yields two products, any other group with a range
yields one consolidated product, a rangeless group yields one plain
product. -/
def rangeCaseProducts (g : List Tier) : List Product :=
  if g.any hasAmbig then
    match singleAmbigTier g with
    | some t => twoSingleProducts t
    | none => consolidatedProductOf g
  else plainProductOf g

/-! ## Phase 1: `extract_simple_products` -/

/-- Phase-1 starting points: skip genuinely-ranged tiers; a tier starts
a schedule if its `lower` is 0 or it is the first tier. -/
def starts1Core (i : ℕ) : List Tier → List (Tier × List Tier)
  | [] => []
  | t :: ts =>
      (if hasAmbig t then []
       else if pyEq t.lower (PVal.fin 0) || i == 0 then [(t, ts)] else [])
      ++ starts1Core (i + 1) ts

/-- Phase-1 starting points with the first-tier fallback. -/
def starts1 (sorted : List Tier) : List (Tier × List Tier) :=
  let s := starts1Core 0 sorted
  if s.isEmpty then
    match sorted with
    | [] => []
    | t :: ts => [(t, ts)]
  else s

/-- Phase-1 greedy extension from a running upper bound, with tolerance
`max(1000, cu * 0.001)`: genuinely-ranged tiers are skipped; a tier
within tolerance extends; a tier overlapping below is skipped; a tier
beyond the gap ends the schedule; any other (NaN) comparison outcome is
passed over. -/
def extendSched1 (cu : PVal) : List Tier → List Tier
  | [] => []
  | t :: ts =>
      if hasAmbig t then extendSched1 cu ts
      else
        let tol := pyMax (PVal.fin 1000) (pyMul cu (PVal.fin (1/1000)))
        if pyLe (pyAbs (pySub t.lower cu)) tol then t :: extendSched1 t.upper ts
        else if pyLt t.lower (pySub cu tol) then extendSched1 cu ts
        else if pyGt t.lower (pyAdd cu tol) then []
        else extendSched1 cu ts

/-- The tiers of a schedule that carry a numeric `fee_min`. -/
def validFeeTiers (schedule : List Tier) : List Tier :=
  schedule.filter (fun t => !isna t.fee_min)

/-- Phase-1 acceptance: no adjacent pair of numeric fees increases. -/
def monoNonIncreasing (schedule : List Tier) : Bool :=
  !adjAny (fun prev cur => pyGt cur.fee_min prev.fee_min)
    (validFeeTiers schedule)

/-- Phase-1 product from one schedule: one-tier schedules are skipped,
fee-increasing schedules are rejected. -/
def schedToSimpleProduct (schedule : List Tier) : Option Product :=
  if schedule.length ≤ 1 then none
  else if monoNonIncreasing schedule then
    some ⟨schedule.map (·.lower), some (schedule.map (·.upper)),
          schedule.map plainFee⟩
  else none

/-- `extract_simple_products` (Phase 1). -/
def extract_simple_products (tiers : List Tier) : List Product :=
  if tiers.isEmpty then []
  else
    ((starts1 (sortTiersByLower tiers)).map
      (fun st => st.1 :: extendSched1 st.1.upper st.2)).filterMap
      schedToSimpleProduct

/-! ## Phase 2: `handle_fee_ranges` -/

/-- Phase-2 starting points: `lower == 0`, first tier, or `lower <=`
the previous tier's `lower` in sorted order. -/
def starts2Core (i : ℕ) (prev : Option Tier) : List Tier → List (Tier × List Tier)
  | [] => []
  | t :: ts =>
      let hit := pyEq t.lower (PVal.fin 0) || i == 0 ||
        (match prev with
         | some p => pyLe t.lower p.lower
         | none => false)
      (if hit then [(t, ts)] else []) ++ starts2Core (i + 1) (some t) ts

/-- Phase-2 starting points with the (unreachable) first-tier fallback. -/
def starts2 (sorted : List Tier) : List (Tier × List Tier) :=
  let s := starts2Core 0 none sorted
  if s.isEmpty then
    match sorted with
    | [] => []
    | t :: ts => [(t, ts)]
  else s

/-- Phase-2 greedy extension, tolerance `max(1, cu * 0.00001)`, no
skipping of ranged tiers. -/
def extendSched2 (cu : PVal) : List Tier → List Tier
  | [] => []
  | t :: ts =>
      let tol := pyMax (PVal.fin 1) (pyMul cu (PVal.fin (1/100000)))
      if pyLe (pyAbs (pySub t.lower cu)) tol then t :: extendSched2 t.upper ts
      else if pyLt t.lower (pySub cu tol) then extendSched2 cu ts
      else if pyGt t.lower (pyAdd cu tol) then []
      else extendSched2 cu ts

/-- Continuity with the phase-1 tolerance, as used when phase 2
sub-groups a schedule and when phases 3's segments are cut:
`abs(lower - prev_upper) <= max(1000, prev_upper * 0.001)`. -/
def within1000Tol (pu lo : PVal) : Bool :=
  pyLe (pyAbs (pySub lo pu)) (pyMax (PVal.fin 1000) (pyMul pu (PVal.fin (1/1000))))

/-- Phase-2 sub-grouping of one schedule by phase-1-tolerance
continuity against the previous group member. -/
def rangeGroupsAux (curRev : List Tier) (prev : Tier) : List Tier → List (List Tier)
  | [] => [curRev.reverse]
  | t :: ts =>
      if within1000Tol prev.upper t.lower then rangeGroupsAux (t :: curRev) t ts
      else curRev.reverse :: rangeGroupsAux [t] t ts

/-- Phase-2 sub-grouping of one schedule. -/
def rangeGroups : List Tier → List (List Tier)
  | [] => []
  | t :: ts => rangeGroupsAux [t] t ts

/-- Phase-2 emission for one schedule: sub-group then emit per group if
the schedule has a range anywhere, else one plain product. -/
def scheduleProducts2 (schedule : List Tier) : List Product :=
  if schedule.any hasAmbig then (rangeGroups schedule).flatMap rangeCaseProducts
  else plainProductOf schedule

/-- `handle_fee_ranges` (Phase 2). -/
def handle_fee_ranges (tiers : List Tier) : List Product :=
  if !(tiers.any hasAmbig) then []
  else
    ((starts2 (sortTiersByLower tiers)).map
      (fun st => st.1 :: extendSched2 st.1.upper st.2)).flatMap
      scheduleProducts2

/-! ## Phase 4: `process_multiple_fee_schedules` -/

/-- Phase-4 schedule start positions: position 0 plus every position
whose `lower` is `<=` its predecessor's `lower` (index order). -/
def starts4 (l : List Tier) : List ℕ :=
  0 :: (pyEnum 0 (l.zip l.tail)).filterMap (fun x =>
    if pyLe x.2.2.lower x.2.1.lower then some (x.1 + 1) else none)

/-- Python slices `l[s:e]` between consecutive start positions, the
last running to the end of the list. -/
def slicesAt (l : List Tier) : List ℕ → List (List Tier)
  | [] => []
  | [s] => [l.drop s]
  | s :: e :: rest => ((l.drop s).take (e - s)) :: slicesAt l (e :: rest)

/-- `process_multiple_fee_schedules` (Phase 4). -/
def process_multiple_fee_schedules (tiers : List Tier) : List Product :=
  if tiers.isEmpty then []
  else
    ((slicesAt (sortTiersByIndex tiers) (starts4 (sortTiersByIndex tiers))).filter
      (fun s => !s.isEmpty)).flatMap rangeCaseProducts

/-! ## Phase 3: `process_multiple_products` -/

/-- Phase-3 schedule roots: `lower == 0`, or (beyond position 0) no
earlier tier's `upper` equals this tier's `lower`. -/
def starts3Core (i : ℕ) (prevs : List Tier) : List Tier → List (ℕ × Tier)
  | [] => []
  | t :: ts =>
      let hit :=
        if pyEq t.lower (PVal.fin 0) then true
        else if i == 0 then false
        else !(prevs.any (fun p => pyEq t.lower p.upper))
      (if hit then [(i, t)] else []) ++ starts3Core (i + 1) (prevs ++ [t]) ts

/-- Phase-3 roots with the first-tier fallback. -/
def starts3 (l : List Tier) : List (ℕ × Tier) :=
  let s := starts3Core 0 [] l
  if s.isEmpty then
    match l with
    | [] => []
    | t :: _ => [(0, t)]
  else s

theorem filter_partition_length (p : α → Bool) (l : List α) :
    (l.filter p).length + (l.filter (fun x => !p x)).length = l.length := by
  induction l with
  | nil => rfl
  | cons x xs ih =>
      by_cases h : p x = true <;> simp [List.filter_cons, h, ← ih] <;> omega

/-- The stack traversal of Phase 3: pop a frontier upper bound, sweep the
not-yet-visited tiers in position order, append every tier within
phase-1 tolerance to the schedule and push its upper bound (LIFO, so the
pushes of one sweep pop in reverse position order). -/
def phase3Loop (sched : List Tier) (unvis : List (ℕ × Tier))
    (stack : List PVal) : List Tier :=
  match stack with
  | [] => sched
  | pu :: rest =>
      let hits := unvis.filter (fun x => within1000Tol pu x.2.lower)
      let unvisNew := unvis.filter (fun x => !within1000Tol pu x.2.lower)
      phase3Loop (sched ++ hits.map (·.2)) unvisNew
        ((hits.map (fun x => x.2.upper)).reverse ++ rest)
termination_by 2 * unvis.length + stack.length
decreasing_by
  have hp := filter_partition_length (fun x => within1000Tol pu x.2.lower) unvis
  simp only [List.length_append, List.length_reverse, List.length_map,
    List.length_cons]
  omega

/-- Split one (lower-sorted) Phase-3 schedule into maximal segments
continuous under the phase-1 tolerance. -/
def segAux (curRev : List Tier) (cu : PVal) : List Tier → List (List Tier)
  | [] => [curRev.reverse]
  | t :: ts =>
      if within1000Tol cu t.lower then segAux (t :: curRev) t.upper ts
      else curRev.reverse :: segAux [t] t.upper ts

/-- Segments of one schedule; an empty schedule is the `schedule[0]`
IndexError of the source. -/
def segmentsOfSchedule : List Tier → Option (List (List Tier))
  | [] => none
  | h :: t => some (segAux [h] h.upper t)

/-- Segments of every schedule, concatenated in order. -/
def segmentsAll : List (List Tier) → Option (List (List Tier))
  | [] => some []
  | s :: ss =>
      match segmentsOfSchedule s with
      | none => none
      | some segs => (segmentsAll ss).map (fun r => segs ++ r)

/-- Phase-3 fifth pass: every tier claimed by no segment becomes its own
single-tier product (two products if it carries a genuine fee range). -/
def leftoverProducts (sortedI : List Tier) (continuous : List (List Tier)) :
    List Product :=
  (sortedI.filter (fun t =>
    !(continuous.any (fun sch => sch.any (fun u => u.index == t.index))))).flatMap
    (fun t =>
      if t.is_range && pyNe t.fee_min t.fee_max
          && !isna t.fee_min && !isna t.fee_max then
        twoSingleProducts t
      else
        [⟨[t.lower], some [t.upper], [plainFee t]⟩])

/-- Elementwise `==` of `cur`'s upper bounds against `pj`'s, over the
index range of `cur`'s; `none` models the KeyError/IndexError raised
when `pj` lacks the key or is shorter. -/
def ubEqAux (curUb : List PVal) (pjUb : Option (List PVal)) (k : ℕ) : Option Bool :=
  if h : k < curUb.length then
    match pjUb with
    | none => none
    | some ub =>
        match ub.get? k with
        | none => none
        | some v =>
            if pyEq (curUb.get ⟨k, h⟩) v then ubEqAux curUb pjUb (k + 1)
            else some false
  else some true
termination_by curUb.length - k

/-- The final-pass structural comparison of two Phase-3 products:
equal threshold lengths, elementwise `==` thresholds, elementwise `==`
upper bounds (swept over `cur`'s length, sharing Python's short-circuit
order). -/
def sameStruct (cur pj : Product) : Option Bool :=
  if cur.thresholds.length = pj.thresholds.length then
    if (cur.thresholds.zip pj.thresholds).all (fun x => pyEq x.1 x.2) then
      match cur.upper_bounds with
      | none => none
      | some cub => ubEqAux cub pj.upper_bounds 0
    else some false
  else some false

/-- Drop from `rest` every product structurally identical to `cur` with
equal fee lists (the products the final pass marks as processed). -/
def filterDups (cur : Product) : List Product → Option (List Product)
  | [] => some []
  | q :: qs =>
      match sameStruct cur q with
      | none => none
      | some b =>
          match filterDups cur qs with
          | none => none
          | some qs2 => some (if b && cur.fees == q.fees then qs2 else q :: qs2)

theorem filterDups_length_le (cur : Product) :
    ∀ l l2, filterDups cur l = some l2 → l2.length ≤ l.length := by
  intro l
  induction l with
  | nil => intro l2 h; simp [filterDups] at h; simp [← h]
  | cons q qs ih =>
      intro l2 h
      simp only [filterDups] at h
      cases hs : sameStruct cur q with
      | none => rw [hs] at h; exact absurd h (by simp)
      | some b =>
          rw [hs] at h
          cases hf : filterDups cur qs with
          | none => rw [hf] at h; exact absurd h (by simp)
          | some qs2 =>
              rw [hf] at h
              have hle := ih qs2 hf
              by_cases hb : (b && cur.fees == q.fees) = true
              · simp [hb] at h; simp [← h]; omega
              · simp only [Bool.not_eq_true] at hb
                simp [hb] at h; simp [← h, List.length_cons]; omega

/-- The final pass of Phase 3: keep each product, dropping later exact
duplicates. -/
def mergeIdentical (l : List Product) : Option (List Product) :=
  match l with
  | [] => some []
  | p :: rest =>
      match h : filterDups p rest with
      | none => none
      | some rest2 =>
          match mergeIdentical rest2 with
          | none => none
          | some out => some (p :: out)
termination_by l.length
decreasing_by
  have := filterDups_length_le _ _ _ h
  simp only [List.length_cons]
  omega

/-- The Phase-3 candidate schedules: one stack traversal per root,
each sorted by `lower`. -/
def phase3Schedules (sortedI : List Tier) : List (List Tier) :=
  (starts3 sortedI).map (fun st =>
    pySortWith (fun a b => pyLt a.lower b.lower)
      (phase3Loop [st.2]
        ((pyEnum 0 sortedI).filter (fun x => !(x.1 == st.1)))
        [st.2.upper]))

/-- `process_multiple_products` (Phase 3). -/
def process_multiple_products (tiers : List Tier) : Option (List Product) :=
  if tiers.isEmpty then some []
  else
    match segmentsAll (phase3Schedules (sortTiersByIndex tiers)) with
    | none => none
    | some continuous =>
        mergeIdentical
          (continuous.flatMap rangeCaseProducts
            ++ leftoverProducts (sortTiersByIndex tiers) continuous)

/-! ## `identify_products` -/

/-- The reconstruction on a collected tier list: Phase 4 when the
detector fires, then the tiers are sorted by `lower` (NaN last) and
Phases 1, 2, 3 are tried in order, each gated by the effective
`validate_products`; if all fail the record yields no products. -/
def identifyFromTiers (tiers : List Tier) : Option (List Product) :=
  if tiers.isEmpty then some []
  else if detect_multiple_fee_schedules tiers
      && !(process_multiple_fee_schedules tiers).isEmpty
      && validate_products (process_multiple_fee_schedules tiers) then
    some (process_multiple_fee_schedules tiers)
  else if !(extract_simple_products (sortTiersByLower tiers)).isEmpty
      && validate_products (extract_simple_products (sortTiersByLower tiers)) then
    some (extract_simple_products (sortTiersByLower tiers))
  else if !(handle_fee_ranges (sortTiersByLower tiers)).isEmpty
      && validate_products (handle_fee_ranges (sortTiersByLower tiers)) then
    some (handle_fee_ranges (sortTiersByLower tiers))
  else
    match process_multiple_products (sortTiersByLower tiers) with
    | none => none
    | some p3 =>
        if !p3.isEmpty && validate_products p3 then some p3
        else some []

/-- `identify_products` on a row. -/
def identify_products (row : Record) : Option (List Product) :=
  identifyFromTiers (collect_tiers row)

/-! ## The fragmentation reconciliation of `main` -/

/-- Continuity of the flattened sorted thresholds: no adjacent gap
exceeds `max(1000, prev * 0.001) * 10`. -/
def isContinuousSeq (sTh : List PVal) : Bool :=
  !adjAny (fun prev cur =>
    pyGt (pyAbs (pySub cur prev))
      (pyMul (pyMax (PVal.fin 1000) (pyMul prev (PVal.fin (1/1000))))
        (PVal.fin 10))) sTh

/-- The fallback fee check of `main`: adjacent numeric fees must not
increase; pairs involving a string or `None` entry are skipped. -/
def feesMonoOKAfterSort (sFees : List Fee) : Bool :=
  !adjAny (fun prev cur =>
    match prev, cur with
    | Fee.num a, Fee.num b => pyGt b a
    | _, _ => false) sFees

/-- All thresholds of a product list, flattened in product order. -/
def reconAllThresholds (ps : List Product) : List PVal :=
  ps.flatMap (·.thresholds)

/-- All fees of a product list, flattened in product order. -/
def reconAllFees (ps : List Product) : List Fee :=
  ps.flatMap (·.fees)

/-- The flattened `(threshold, fee)` pairs sorted by threshold (the
`sorted_indices` of the source paired with the fee picked at the same
index). -/
def reconSortedPairs (ps : List Product) : List (PVal × Fee) :=
  pySortWith (fun a b => pyLt a.1 b.1)
    ((reconAllThresholds ps).zip (reconAllFees ps))

/-- The sorted thresholds of the reconciliation. -/
def reconSortedThresholds (ps : List Product) : List PVal :=
  (reconSortedPairs ps).map (·.1)

/-- The sorted fees of the reconciliation. -/
def reconSortedFees (ps : List Product) : List Fee :=
  (reconSortedPairs ps).map (·.2)

/-- `products[-1]["upper_bounds"][-1]`, `none` standing for the
IndexError/KeyError of a missing piece. -/
def reconLastUpper (ps : List Product) : Option PVal :=
  match ps.getLast? with
  | none => none
  | some p =>
      match p.upper_bounds with
      | none => none
      | some ub => ub.getLast?

/-- The per-record reconciliation block of `main`: with more than one
product, flatten all `(threshold, fee)` pairs, sort by threshold, and if
the thresholds are continuous (or, failing that, the numeric fees are
non-increasing) replace the list with one merged product whose upper
bounds are the successive sorted thresholds, closed by `inf` if the last
product\'s last upper bound is `inf`, else by twice the last threshold. -/
def reconcile (products : List Product) : Option (List Product) :=
  if products.length ≤ 1 then some products
  else if (reconAllFees products).length < (reconAllThresholds products).length then
    none
  else if (if isContinuousSeq (reconSortedThresholds products) then true
           else feesMonoOKAfterSort (reconSortedFees products)) then
    match reconLastUpper products with
    | none => none
    | some lastUpper =>
        if pyEq lastUpper PVal.inf then
          some [⟨reconSortedThresholds products,
                 some ((reconSortedThresholds products).tail ++ [PVal.inf]),
                 reconSortedFees products⟩]
        else
          match (reconSortedThresholds products).getLast? with
          | none => none
          | some lastTh =>
              some [⟨reconSortedThresholds products,
                     some ((reconSortedThresholds products).tail
                       ++ [pyMul lastTh (PVal.fin 2)]),
                     reconSortedFees products⟩]
  else some products

/-- The per-record product list written by `main`: reconstruction then
reconciliation (formatting happens after this point). -/
def pipelineProducts (row : Record) : Option (List Product) :=
  match identify_products row with
  | none => none
  | some ps => reconcile ps

/-! ## `format_product` -/

/-- Formatting of one fee entry of a product: strings that look like
`"min-max"` ranges are split, parsed back to floats and formatted as
percentages (falling back to the raw string), any other string passes
through, numbers and `None` go to `format_percentage`. -/
def formatFeeEntry : Fee → String
  | Fee.str s =>
      if s.contains '-' && !s.startsWith "Flat Fee:" then
        match s.splitOn "-" with
        | [a, b] =>
            match parseFloat a, parseFloat b with
            | some x, some y =>
                format_percentage (PVal.fin x) ++ "-"
                  ++ format_percentage (PVal.fin y)
            | _, _ => s
        | _ => s
      else s
  | Fee.nil => format_percentage PVal.nan
  | Fee.num v => format_percentage v

/-- `format_product`. -/
def format_product (p : Product) : String :=
  if p.thresholds.isEmpty || p.fees.isEmpty then ""
  else
    let ranges := (pyEnum 0 p.thresholds).map (fun x =>
      match p.upper_bounds with
      | some ub =>
          match ub.get? x.1 with
          | some u =>
              if u = PVal.inf then format_threshold x.2 ++ "+"
              else format_threshold x.2 ++ "-" ++ format_threshold u
          | none => format_threshold x.2
      | none => format_threshold x.2)
    "(" ++ String.intercalate ", " ranges ++ ") ("
      ++ String.intercalate ", " (p.fees.map formatFeeEntry) ++ ")"

/-! ## Claim C1: the single genuinely-ranged tier `(0, inf, 0.01, 0.02)` -/

/-- The record whose only populated slot is
`(lower=0, upper=inf, fee_min=0.01, fee_max=0.02, is_range=True)`. -/
def c1Record : Record := fun i =>
  if i.1 = 0 then
    ⟨PVal.fin 0, PVal.inf, PVal.fin (1/100), PVal.fin (1/50), true⟩
  else emptySlot

/-- The single product the reconciliation leaves for `c1Record`. -/
def c1Merged : Product :=
  ⟨[PVal.fin 0, PVal.fin 0], some [PVal.fin 0, PVal.inf],
   [Fee.num (PVal.fin (1/100)), Fee.num (PVal.fin (1/50))]⟩

/-- C1 counterexample: run through the phase engine AND the
fragmentation reconciliation, the record does not yield two products —
the reconciler merges the phase-2 pair (their thresholds `0, 0` are
within ten times the phase-1 tolerance) into one product. -/
theorem c1_counterexample :
    ¬ ∃ ps, pipelineProducts c1Record = some ps ∧ ps.length = 2 := by
  rintro ⟨ps, hps, hlen⟩
  have h : pipelineProducts c1Record = some [c1Merged] := by
    with_unfolding_all decide
  rw [h] at hps
  cases hps
  simp at hlen

/-- C1 amended: the phase engine (`identify_products`) alone yields
exactly the two one-tier products with fees `0.01` and `0.02`, each with
threshold range `(0, inf)`; the fragmentation reconciliation then merges
them into the single product with thresholds `[0, 0]`, upper bounds
`[0, inf]` and fees `[0.01, 0.02]`. -/
theorem c1_amended :
    identify_products c1Record =
      some [⟨[PVal.fin 0], some [PVal.inf], [Fee.num (PVal.fin (1/100))]⟩,
            ⟨[PVal.fin 0], some [PVal.inf], [Fee.num (PVal.fin (1/50))]⟩]
    ∧ pipelineProducts c1Record = some [c1Merged] := by
  with_unfolding_all decide

/-! ## Claim C2: `format_percentage` and the formatting round trip -/

/-- C2: what the formatter emits at the inputs of the claim.  The
source has its `rstrip` calls operate on a string already ending in `"%"`, so they
strip nothing, and a second `"%"` is appended: `0.05` renders as
`"5.00%%"` (not `"5%"`), `0.0125` as `"1.25%%"`, and the product with
threshold `(1000000, inf)` and fee `0.0125` as `"($1.0M+) (1.25%%)"`
(not `"($1.0M+) (1.25%)"`). -/
theorem c2_formatter_output :
    format_percentage (PVal.fin (1/20)) = "5.00%%"
    ∧ format_percentage (PVal.fin (1/80)) = "1.25%%"
    ∧ format_product
        ⟨[PVal.fin 1000000], some [PVal.inf], [Fee.num (PVal.fin (1/80))]⟩
        = "($1.0M+) (1.25%%)" := by
  with_unfolding_all decide

theorem isEmpty_false_iff {l : List α} : l.isEmpty = false ↔ l ≠ [] := by
  cases l <;> simp

/-! ## Claim C4: the effective `validate_products` -/

/-- C4 counterexample: a product list whose product has matching
non-empty `thresholds` and `fees` but no `upper_bounds` key is rejected
by the effective (second) `validate_products`, contrary to the claim. -/
theorem c4_counterexample :
    validate_products [⟨[PVal.fin 0], none, [Fee.num (PVal.fin (1/100))]⟩]
      = false := by with_unfolding_all decide

theorem validate_products_spec (ps : List Product) :
    validate_products ps = true ↔
      ps ≠ [] ∧ ∀ p ∈ ps, ∃ ub, p.upper_bounds = some ub ∧
        p.thresholds.length = ub.length ∧ ub.length = p.fees.length ∧
        p.thresholds ≠ [] := by
  unfold validate_products
  rw [Bool.and_eq_true, List.all_eq_true]
  constructor
  · rintro ⟨h1, h2⟩
    refine ⟨by simpa [isEmpty_false_iff] using h1, fun p hp => ?_⟩
    have hb := h2 p hp
    cases hub : p.upper_bounds with
    | none => rw [hub] at hb; simp at hb
    | some ub =>
        rw [hub] at hb
        simp only [Bool.and_eq_true, beq_iff_eq, Bool.not_eq_true',
          isEmpty_false_iff] at hb
        exact ⟨ub, rfl, hb.1.1.1.1, hb.1.1.1.2, hb.1.1.2⟩
  · rintro ⟨h1, h2⟩
    refine ⟨by simpa [isEmpty_false_iff] using h1, fun p hp => ?_⟩
    obtain ⟨ub, hub, hl1, hl2, hne⟩ := h2 p hp
    rw [hub]
    have hthlen : 0 < p.thresholds.length := List.length_pos.mpr hne
    have hublen : 0 < ub.length := hl1 ▸ hthlen
    have hfelen : 0 < p.fees.length := hl2 ▸ hublen
    have h3 : p.thresholds.isEmpty = false := isEmpty_false_iff.mpr hne
    have h4 : ub.isEmpty = false :=
      isEmpty_false_iff.mpr (List.length_pos.mp hublen)
    have h5 : p.fees.isEmpty = false :=
      isEmpty_false_iff.mpr (List.length_pos.mp hfelen)
    simp [hl1, hl2, h3, h4, h5]

/-- C4 amended: the effective validator accepts a product list iff the
list is non-empty and every product carries all three of `thresholds`,
`upper_bounds` and `fees`, of equal length and non-empty; in particular
a product lacking `upper_bounds` is rejected. -/
theorem c4_amended (ps : List Product) :
    validate_products ps = true ↔
      ps ≠ [] ∧ ∀ p ∈ ps, ∃ ub, p.upper_bounds = some ub ∧
        p.thresholds.length = ub.length ∧ ub.length = p.fees.length ∧
        p.thresholds ≠ [] :=
  validate_products_spec ps

/-! ## Claim C9: determinism of the reconstruction -/

/-- C9: the reconstruction is a pure function of the tier list — every
source of iteration (dicts in insertion order, `range` loops, the
explicit stack of Phase 3) is deterministic, so re-running it on the
same tier set yields the identical product list. -/
theorem c9_deterministic (tiers : List Tier) :
    identifyFromTiers tiers = identifyFromTiers tiers := rfl

/-! ## Claim C6: Phase-1 products -/

/-- The numeric fees of a fee list, in order (missing and string
entries dropped). -/
def numericFees (fees : List Fee) : List PVal :=
  fees.filterMap (fun f =>
    match f with
    | Fee.num v => some v
    | _ => none)

theorem numericFees_map_plainFee (l : List Tier) :
    numericFees (l.map plainFee) = (validFeeTiers l).map (·.fee_min) := by
  induction l with
  | nil => rfl
  | cons t ts ih =>
      by_cases h : isna t.fee_min = true
      · simp [numericFees, validFeeTiers, plainFee, h, List.filterMap_cons] at *
        exact ih
      · simp only [Bool.not_eq_true] at h
        simp [numericFees, validFeeTiers, plainFee, h, List.filterMap_cons] at *
        exact ih

theorem adjAny_false_iff_chain (p : α → α → Bool) (l : List α) :
    adjAny p l = false ↔ l.Chain' (fun a b => p a b = false) := by
  induction l with
  | nil => simp [adjAny]
  | cons x xs ih =>
      cases xs with
      | nil => simp [adjAny]
      | cons y ys =>
          rw [List.chain'_cons, ← ih]
          simp only [adjAny, List.zip_cons_cons, List.tail_cons, List.any_cons,
            Bool.or_eq_false_iff]

theorem mem_validFeeTiers_not_nan {t : Tier} {l : List Tier}
    (h : t ∈ validFeeTiers l) : t.fee_min ≠ PVal.nan := by
  have := List.of_mem_filter h
  simpa [isna] using this

theorem pyLe_of_pyGt_false {a b : PVal} (ha : a ≠ PVal.nan) (hb : b ≠ PVal.nan)
    (h : pyGt b a = false) : pyLe b a = true := by
  cases a <;> cases b <;>
    simp_all [pyGt, pyLt, pyLe, not_lt]

/-- C6: every product emitted by Phase 1 spans at least two tiers, and
its numeric fees are non-increasing along the product (missing fees
being dropped from the check, not treated as violations). -/
theorem c6_phase1_products (tiers : List Tier) (p : Product)
    (hp : p ∈ extract_simple_products tiers) :
    2 ≤ p.thresholds.length
    ∧ (numericFees p.fees).Chain' (fun a b => pyLe b a = true) := by
  unfold extract_simple_products at hp
  by_cases hne : tiers.isEmpty = true
  · simp [hne] at hp
  · simp only [Bool.not_eq_true] at hne
    rw [if_neg (by simp [hne])] at hp
    rw [List.mem_filterMap] at hp
    obtain ⟨sched, _, hsp⟩ := hp
    unfold schedToSimpleProduct at hsp
    by_cases hlen : sched.length ≤ 1
    · simp [hlen] at hsp
    · rw [if_neg hlen] at hsp
      by_cases hmono : monoNonIncreasing sched = true
      · rw [if_pos hmono] at hsp
        cases hsp
        constructor
        · simpa using Nat.lt_of_not_le hlen
        · rw [numericFees_map_plainFee]
          unfold monoNonIncreasing at hmono
          rw [Bool.not_eq_true', adjAny_false_iff_chain] at hmono
          have hchain : ((validFeeTiers sched).map (·.fee_min)).Chain'
              (fun x y => pyGt y x = false) :=
            List.chain'_map_of_chain' (fun t : Tier => t.fee_min)
              (fun _ _ hab => hab) hmono
          have hmem : ∀ x ∈ (validFeeTiers sched).map (·.fee_min),
              x ≠ PVal.nan := by
            intro x hx
            rw [List.mem_map] at hx
            obtain ⟨t, ht, hxe⟩ := hx
            exact hxe ▸ mem_validFeeTiers_not_nan ht
          rw [List.chain'_iff_get] at hchain ⊢
          intro i hi
          exact pyLe_of_pyGt_false
            (hmem _ (List.get_mem _ _ _)) (hmem _ (List.get_mem _ _ _))
            (hchain i hi)
      · simp [hmono] at hsp

/-- A concrete two-tier input for the C6 witness. -/
def c6Tiers : List Tier :=
  [⟨1, PVal.fin 0, PVal.fin 10, PVal.fin (1/50), PVal.fin (1/50), false⟩,
   ⟨2, PVal.fin 10, PVal.inf, PVal.fin (1/100), PVal.fin (1/100), false⟩]

/-- The product Phase 1 extracts from `c6Tiers`. -/
def c6Product : Product :=
  ⟨[PVal.fin 0, PVal.fin 10], some [PVal.fin 10, PVal.inf],
   [Fee.num (PVal.fin (1/50)), Fee.num (PVal.fin (1/100))]⟩

set_option maxRecDepth 2000 in
/-- Witness for C6 at `c6Tiers`. -/
theorem c6_phase1_products_witness :
    2 ≤ c6Product.thresholds.length
    ∧ (numericFees c6Product.fees).Chain' (fun a b => pyLe b a = true) :=
  c6_phase1_products c6Tiers c6Product (by
    have h : extract_simple_products c6Tiers = [c6Product] := by
      with_unfolding_all decide
    rw [h]
    simp)

/-! ## Claim C3: the reconciler merge -/

theorem flatMap_length_congr (f g : Product → ℕ)
    (ps : List Product) (h : ∀ p ∈ ps, f p = g p)
    (f2 : Product → List α) (g2 : Product → List β)
    (hf : ∀ p, (f2 p).length = f p)
    (hg : ∀ p, (g2 p).length = g p) :
    (ps.flatMap f2).length = (ps.flatMap g2).length := by
  induction ps with
  | nil => rfl
  | cons p rest ih =>
      simp only [List.flatMap_cons, List.length_append]
      rw [hf p, hg p, h p (by simp),
        ih (fun q hq => h q (by simp [hq]))]

theorem reconAllFees_length (ps : List Product)
    (hv : validate_products ps = true) :
    (reconAllFees ps).length = (reconAllThresholds ps).length := by
  have hspec := (validate_products_spec ps).mp hv
  unfold reconAllFees reconAllThresholds
  refine flatMap_length_congr (fun p => p.fees.length)
    (fun p => p.thresholds.length) ps ?_ _ _ (fun _ => rfl) (fun _ => rfl)
  intro p hp
  obtain ⟨ub, _, hl1, hl2, _⟩ := hspec.2 p hp
  show p.fees.length = p.thresholds.length
  omega

theorem reconAllThresholds_ne_nil (ps : List Product)
    (hne : ps ≠ []) (hv : validate_products ps = true) :
    reconAllThresholds ps ≠ [] := by
  have hspec := (validate_products_spec ps).mp hv
  cases ps with
  | nil => exact absurd rfl hne
  | cons p rest =>
      obtain ⟨ub, _, _, _, hth⟩ := hspec.2 p (by simp)
      unfold reconAllThresholds
      simp only [List.flatMap_cons]
      intro h
      rw [List.append_eq_nil] at h
      exact hth h.1

theorem reconSortedThresholds_length (ps : List Product)
    (hv : validate_products ps = true) :
    (reconSortedThresholds ps).length = (reconAllThresholds ps).length := by
  unfold reconSortedThresholds reconSortedPairs
  rw [List.length_map, pySortWith_length, List.length_zip,
    reconAllFees_length ps hv, Nat.min_self]

/-- C3: when the reconciler accepts a multi-product validated output as
one schedule (the sorted thresholds are continuous within ten times the
phase-1 tolerance), it replaces the list with a single merged product —
thresholds and fees are the flattened pairs sorted by threshold, each
upper bound is the next sorted threshold, and the final upper bound is
`inf` exactly if the last product's last upper bound is `inf`, else
twice the final threshold. -/
theorem c3_reconciler_merge (ps : List Product)
    (h2 : 2 ≤ ps.length) (hv : validate_products ps = true)
    (hc : isContinuousSeq (reconSortedThresholds ps) = true) :
    ∃ lu, reconLastUpper ps = some lu ∧
      ((pyEq lu PVal.inf = true ∧
        reconcile ps = some [⟨reconSortedThresholds ps,
          some ((reconSortedThresholds ps).tail ++ [PVal.inf]),
          reconSortedFees ps⟩]) ∨
       (pyEq lu PVal.inf = false ∧ ∃ lastTh,
        (reconSortedThresholds ps).getLast? = some lastTh ∧
        reconcile ps = some [⟨reconSortedThresholds ps,
          some ((reconSortedThresholds ps).tail ++ [pyMul lastTh (PVal.fin 2)]),
          reconSortedFees ps⟩])) := by
  have hne : ps ≠ [] := by
    intro h; rw [h] at h2; simp at h2
  obtain ⟨lastP, hlast⟩ : ∃ p, ps.getLast? = some p := by
    cases hps : ps.getLast? with
    | none => exact absurd (List.getLast?_eq_none_iff.mp hps) hne
    | some p => exact ⟨p, rfl⟩
  have hmem : lastP ∈ ps := List.mem_of_mem_getLast? (Option.mem_def.mpr hlast)
  obtain ⟨ub, hub, hl1, hl2, hthne⟩ :=
    ((validate_products_spec ps).mp hv).2 lastP hmem
  have hubne : ub ≠ [] := by
    intro h
    rw [h] at hl1
    simp at hl1
    exact hthne hl1
  obtain ⟨lu, hlu⟩ : ∃ x, ub.getLast? = some x := by
    cases hx : ub.getLast? with
    | none => exact absurd (List.getLast?_eq_none_iff.mp hx) hubne
    | some x => exact ⟨x, rfl⟩
  have hrlu : reconLastUpper ps = some lu := by
    simp only [reconLastUpper, hlast, hub, hlu]
  refine ⟨lu, hrlu, ?_⟩
  have hflen := reconAllFees_length ps hv
  by_cases hinf : pyEq lu PVal.inf = true
  · refine Or.inl ⟨hinf, ?_⟩
    unfold reconcile
    rw [if_neg (show ¬ ps.length ≤ 1 by omega),
      if_neg (show ¬ (reconAllFees ps).length < (reconAllThresholds ps).length
        by omega),
      if_pos (by rw [hc]; rfl)]
    simp only [hrlu]
    rw [if_pos hinf]
  · rw [Bool.not_eq_true] at hinf
    have hsthne : reconSortedThresholds ps ≠ [] := by
      intro h
      have hl := reconSortedThresholds_length ps hv
      rw [h] at hl
      exact reconAllThresholds_ne_nil ps hne hv
        (List.length_eq_zero.mp hl.symm)
    obtain ⟨lastTh, hlth⟩ : ∃ x, (reconSortedThresholds ps).getLast? = some x := by
      cases hx : (reconSortedThresholds ps).getLast? with
      | none => exact absurd (List.getLast?_eq_none_iff.mp hx) hsthne
      | some x => exact ⟨x, rfl⟩
    refine Or.inr ⟨hinf, lastTh, hlth, ?_⟩
    unfold reconcile
    rw [if_neg (show ¬ ps.length ≤ 1 by omega),
      if_neg (show ¬ (reconAllFees ps).length < (reconAllThresholds ps).length
        by omega),
      if_pos (by rw [hc]; rfl)]
    simp only [hrlu]
    rw [if_neg (by rw [hinf]; simp)]
    simp only [hlth]

/-! ## Claim C10: Phase 2 settles every genuinely-ranged record -/

/-- The per-product condition of the effective validator. -/
def productAligned (p : Product) : Prop :=
  ∃ ub, p.upper_bounds = some ub ∧ p.thresholds.length = ub.length ∧
    ub.length = p.fees.length ∧ p.thresholds ≠ []

theorem productAligned_twoSingle {p : Product} {t : Tier}
    (hp : p ∈ twoSingleProducts t) : productAligned p := by
  simp only [twoSingleProducts, List.mem_cons, List.mem_singleton,
    List.not_mem_nil, or_false] at hp
  rcases hp with rfl | rfl
  · exact ⟨[t.upper], rfl, rfl, rfl, by simp⟩
  · exact ⟨[t.upper], rfl, rfl, rfl, by simp⟩

theorem productAligned_consolidated {p : Product} {g : List Tier}
    (hp : p ∈ consolidatedProductOf g) : productAligned p := by
  unfold consolidatedProductOf at hp
  by_cases hg : g = []
  · subst hg; simp at hp
  · rw [if_pos (by simpa [isEmpty_false_iff] using hg)] at hp
    rw [List.mem_singleton] at hp
    subst hp
    exact ⟨g.map (·.upper), rfl, by simp, by simp, by simpa using hg⟩

theorem productAligned_plain {p : Product} {g : List Tier}
    (hp : p ∈ plainProductOf g) : productAligned p := by
  unfold plainProductOf at hp
  by_cases hg : g = []
  · subst hg; simp at hp
  · rw [if_pos (by simpa [isEmpty_false_iff] using hg)] at hp
    rw [List.mem_singleton] at hp
    subst hp
    exact ⟨g.map (·.upper), rfl, by simp, by simp, by simpa using hg⟩

theorem productAligned_rangeCase {p : Product} {g : List Tier}
    (hp : p ∈ rangeCaseProducts g) : productAligned p := by
  unfold rangeCaseProducts at hp
  by_cases hr : g.any hasAmbig = true
  · rw [if_pos hr] at hp
    cases hs : singleAmbigTier g with
    | some t => rw [hs] at hp; exact productAligned_twoSingle hp
    | none => rw [hs] at hp; exact productAligned_consolidated hp
  · rw [if_neg hr] at hp
    exact productAligned_plain hp

theorem rangeCaseProducts_ne_nil {g : List Tier} (hg : g ≠ []) :
    rangeCaseProducts g ≠ [] := by
  unfold rangeCaseProducts
  by_cases hr : g.any hasAmbig = true
  · rw [if_pos hr]
    cases hs : singleAmbigTier g with
    | some t => simp [twoSingleProducts]
    | none =>
        unfold consolidatedProductOf
        rw [if_pos (by simpa [isEmpty_false_iff] using hg)]
        simp
  · rw [if_neg hr]
    unfold plainProductOf
    rw [if_pos (by simpa [isEmpty_false_iff] using hg)]
    simp

theorem rangeGroupsAux_groups_ne_nil (rest : List Tier) :
    ∀ curRev prev, curRev ≠ [] →
      rangeGroupsAux curRev prev rest ≠ [] ∧
      ∀ g ∈ rangeGroupsAux curRev prev rest, g ≠ [] := by
  induction rest with
  | nil =>
      intro curRev prev hc
      refine ⟨by simp [rangeGroupsAux], ?_⟩
      intro g hg
      simp only [rangeGroupsAux, List.mem_singleton] at hg
      subst hg
      simpa using hc
  | cons t ts ih =>
      intro curRev prev hc
      simp only [rangeGroupsAux]
      by_cases hw : within1000Tol prev.upper t.lower = true
      · rw [if_pos hw]
        exact ih (t :: curRev) t (by simp)
      · rw [if_neg hw]
        have hrest := ih [t] t (by simp)
        refine ⟨by simp, ?_⟩
        intro g hg
        rcases List.mem_cons.mp hg with hg | hg
        · subst hg; simpa using hc
        · exact hrest.2 g hg

theorem scheduleProducts2_ne_nil {sched : List Tier} (hs : sched ≠ []) :
    scheduleProducts2 sched ≠ [] := by
  unfold scheduleProducts2
  by_cases hr : sched.any hasAmbig = true
  · rw [if_pos hr]
    obtain ⟨t, ts, rfl⟩ := List.exists_cons_of_ne_nil hs
    have hgs := rangeGroupsAux_groups_ne_nil ts [t] t (by simp)
    simp only [rangeGroups]
    rw [Ne, List.flatMap_eq_nil_iff]
    intro hall
    obtain ⟨g, hg⟩ : ∃ g, g ∈ rangeGroupsAux [t] t ts := by
      cases hgg : rangeGroupsAux [t] t ts with
      | nil => exact absurd hgg hgs.1
      | cons a l => exact ⟨a, by simp⟩
    exact rangeCaseProducts_ne_nil (hgs.2 _ hg) (hall _ hg)
  · rw [if_neg hr]
    unfold plainProductOf
    rw [if_pos (by simpa [isEmpty_false_iff] using hs)]
    simp

theorem productAligned_scheduleProducts2 {p : Product} {sched : List Tier}
    (hp : p ∈ scheduleProducts2 sched) : productAligned p := by
  unfold scheduleProducts2 at hp
  by_cases hr : sched.any hasAmbig = true
  · rw [if_pos hr] at hp
    rw [List.mem_flatMap] at hp
    obtain ⟨g, _, hpg⟩ := hp
    exact productAligned_rangeCase hpg
  · rw [if_neg hr] at hp
    exact productAligned_plain hp

theorem validate_of_aligned {ps : List Product} (hne : ps ≠ [])
    (h : ∀ p ∈ ps, productAligned p) : validate_products ps = true :=
  (validate_products_spec ps).mpr ⟨hne, h⟩

theorem handle_fee_ranges_good (tiers : List Tier) (hne : tiers ≠ [])
    (hr : tiers.any hasAmbig = true) :
    handle_fee_ranges tiers ≠ []
    ∧ validate_products (handle_fee_ranges tiers) = true := by
  unfold handle_fee_ranges
  rw [if_neg (by simp [hr])]
  have hsne : sortTiersByLower tiers ≠ [] := fun hx =>
    hne ((pySortWith_eq_nil_iff _).mp hx)
  obtain ⟨t, ts, hcons⟩ := List.exists_cons_of_ne_nil hsne
  have hstarts : ∃ s2, starts2 (sortTiersByLower tiers) = (t, ts) :: s2 := by
    unfold starts2 starts2Core
    rw [hcons]
    simp [starts2Core]
  obtain ⟨s2, hs2⟩ := hstarts
  constructor
  · rw [hs2]
    simp only [List.map_cons, List.flatMap_cons]
    intro hnil
    rw [List.append_eq_nil] at hnil
    exact scheduleProducts2_ne_nil (by simp) hnil.1
  · apply validate_of_aligned
    · rw [hs2]
      simp only [List.map_cons, List.flatMap_cons]
      intro hnil
      rw [List.append_eq_nil] at hnil
      exact scheduleProducts2_ne_nil (by simp) hnil.1
    · intro p hp
      rw [List.mem_flatMap] at hp
      obtain ⟨sched, hsched, hpm⟩ := hp
      exact productAligned_scheduleProducts2 hpm

/-- The reconstruction with Phase 3 removed — the comparison definition
for C10: the detector/Phase-4 gate and Phases 1 and 2 as in
`identifyFromTiers`, then the empty fallback. -/
def identifyProductsWithoutPhase3 (tiers : List Tier) : Option (List Product) :=
  if tiers.isEmpty then some []
  else if detect_multiple_fee_schedules tiers
      && !(process_multiple_fee_schedules tiers).isEmpty
      && validate_products (process_multiple_fee_schedules tiers) then
    some (process_multiple_fee_schedules tiers)
  else if !(extract_simple_products (sortTiersByLower tiers)).isEmpty
      && validate_products (extract_simple_products (sortTiersByLower tiers)) then
    some (extract_simple_products (sortTiersByLower tiers))
  else if !(handle_fee_ranges (sortTiersByLower tiers)).isEmpty
      && validate_products (handle_fee_ranges (sortTiersByLower tiers)) then
    some (handle_fee_ranges (sortTiersByLower tiers))
  else some []

/-- C10: on any non-empty tier set holding a tier with `is_range` and
differing `fee_min`/`fee_max`, Phase 2 returns a non-empty,
validator-passing product list, and consequently the reconstruction
never falls through to Phase 3: it equals the Phase-3-free chain. -/
theorem c10_phase2_settles (tiers : List Tier) (hne : tiers ≠ [])
    (hr : ∃ t ∈ tiers, hasAmbig t = true) :
    handle_fee_ranges (sortTiersByLower tiers) ≠ []
    ∧ validate_products (handle_fee_ranges (sortTiersByLower tiers)) = true
    ∧ identifyFromTiers tiers = identifyProductsWithoutPhase3 tiers := by
  have hsne : sortTiersByLower tiers ≠ [] := fun hx =>
    hne ((pySortWith_eq_nil_iff _).mp hx)
  have hany : (sortTiersByLower tiers).any hasAmbig = true := by
    rw [List.any_eq_true]
    obtain ⟨t, ht, hta⟩ := hr
    exact ⟨t, (mem_pySortWith _).mpr ht, hta⟩
  obtain ⟨hp2ne, hp2v⟩ := handle_fee_ranges_good _ hsne hany
  refine ⟨hp2ne, hp2v, ?_⟩
  unfold identifyFromTiers identifyProductsWithoutPhase3
  split_ifs with h0 h4 h1 h2
  · rfl
  · rfl
  · rfl
  · rfl
  · exact absurd (by simp [isEmpty_false_iff, hp2ne, hp2v]) h2

/-- The single genuinely-ranged tier used as the C10 witness input. -/
def c10Tiers : List Tier :=
  [⟨1, PVal.fin 0, PVal.inf, PVal.fin (1/100), PVal.fin (1/50), true⟩]

/-- Witness for C10 at `c10Tiers`. -/
theorem c10_phase2_settles_witness :
    handle_fee_ranges (sortTiersByLower c10Tiers) ≠ []
    ∧ validate_products (handle_fee_ranges (sortTiersByLower c10Tiers)) = true
    ∧ identifyFromTiers c10Tiers = identifyProductsWithoutPhase3 c10Tiers :=
  c10_phase2_settles c10Tiers (by decide)
    ⟨⟨1, PVal.fin 0, PVal.inf, PVal.fin (1/100), PVal.fin (1/50), true⟩,
     by with_unfolding_all decide, by with_unfolding_all decide⟩

/-- A two-product validated list whose sorted thresholds `0, 500` are
continuous within ten times the phase-1 tolerance — the C3 witness. -/
def c3Ps : List Product :=
  [⟨[PVal.fin 0], some [PVal.fin 1000], [Fee.num (PVal.fin (1/100))]⟩,
   ⟨[PVal.fin 500], some [PVal.inf], [Fee.num (PVal.fin (1/200))]⟩]

/-- Witness for C3 at `c3Ps`. -/
theorem c3_reconciler_merge_witness :
    ∃ lu, reconLastUpper c3Ps = some lu ∧
      ((pyEq lu PVal.inf = true ∧
        reconcile c3Ps = some [⟨reconSortedThresholds c3Ps,
          some ((reconSortedThresholds c3Ps).tail ++ [PVal.inf]),
          reconSortedFees c3Ps⟩]) ∨
       (pyEq lu PVal.inf = false ∧ ∃ lastTh,
        (reconSortedThresholds c3Ps).getLast? = some lastTh ∧
        reconcile c3Ps = some [⟨reconSortedThresholds c3Ps,
          some ((reconSortedThresholds c3Ps).tail ++ [pyMul lastTh (PVal.fin 2)]),
          reconSortedFees c3Ps⟩])) :=
  c3_reconciler_merge c3Ps (by decide) (by with_unfolding_all decide)
    (by with_unfolding_all decide)

/-! ## Claims C7 and C8: totality and the length invariant -/

theorem segmentsAll_isSome (L : List (List Tier)) (h : ∀ s ∈ L, s ≠ []) :
    ∃ segs, segmentsAll L = some segs := by
  induction L with
  | nil => exact ⟨[], rfl⟩
  | cons s ss ih =>
      obtain ⟨t, ts, rfl⟩ := List.exists_cons_of_ne_nil (h s (by simp))
      obtain ⟨segs, hsegs⟩ := ih (fun x hx => h x (by simp [hx]))
      refine ⟨segAux [t] t.upper ts ++ segs, ?_⟩
      simp [segmentsAll, segmentsOfSchedule, hsegs]

theorem phase3Loop_exists_rest (n : ℕ) :
    ∀ (sched : List Tier) (unvis : List (ℕ × Tier)) (stack : List PVal),
      2 * unvis.length + stack.length ≤ n →
      ∃ rest, phase3Loop sched unvis stack = sched ++ rest := by
  induction n with
  | zero =>
      intro sched unvis stack hm
      have hs : stack = [] := by
        cases stack with
        | nil => rfl
        | cons a l => simp at hm
      subst hs
      exact ⟨[], by rw [phase3Loop]; simp⟩
  | succ n ih =>
      intro sched unvis stack hm
      cases stack with
      | nil => exact ⟨[], by rw [phase3Loop]; simp⟩
      | cons pu rest =>
          rw [phase3Loop]
          have hp := filter_partition_length
            (fun x : ℕ × Tier => within1000Tol pu x.2.lower) unvis
          have hm2 : 2 * (unvis.filter
                (fun x => !within1000Tol pu x.2.lower)).length
              + (((unvis.filter (fun x => within1000Tol pu x.2.lower)).map
                  (fun x => x.2.upper)).reverse ++ rest).length ≤ n := by
            simp only [List.length_append, List.length_reverse, List.length_map]
            simp only [List.length_cons] at hm
            omega
          obtain ⟨r2, hr2⟩ := ih _ _ _ hm2
          exact ⟨_, by rw [hr2, List.append_assoc]⟩

theorem phase3Loop_ne_nil (sched : List Tier) (unvis : List (ℕ × Tier))
    (stack : List PVal) (h : sched ≠ []) :
    phase3Loop sched unvis stack ≠ [] := by
  obtain ⟨rest, hrest⟩ := phase3Loop_exists_rest
    (2 * unvis.length + stack.length) sched unvis stack (le_refl _)
  rw [hrest]
  simp [h]

theorem productAligned_leftover {p : Product} {sortedI : List Tier}
    {continuous : List (List Tier)}
    (hp : p ∈ leftoverProducts sortedI continuous) : productAligned p := by
  unfold leftoverProducts at hp
  rw [List.mem_flatMap] at hp
  obtain ⟨t, _, hpt⟩ := hp
  by_cases hc : (t.is_range && pyNe t.fee_min t.fee_max
      && !isna t.fee_min && !isna t.fee_max) = true
  · rw [if_pos hc] at hpt
    exact productAligned_twoSingle hpt
  · rw [if_neg hc] at hpt
    rw [List.mem_singleton] at hpt
    subst hpt
    exact ⟨[t.upper], rfl, rfl, rfl, by simp⟩

theorem ubEqAux_isSome (cub ub : List PVal) (hle : cub.length ≤ ub.length) :
    ∀ k, ∃ b, ubEqAux cub (some ub) k = some b := by
  have key : ∀ m k, cub.length - k ≤ m → ∃ b, ubEqAux cub (some ub) k = some b := by
    intro m
    induction m with
    | zero =>
        intro k hk
        rw [ubEqAux]
        have : ¬ k < cub.length := by omega
        simp [this]
    | succ m ih =>
        intro k hk
        rw [ubEqAux]
        by_cases hklt : k < cub.length
        · have hkub : k < ub.length := lt_of_lt_of_le hklt hle
          rw [dif_pos hklt]
          have hg : ub.get? k = some (ub.get ⟨k, hkub⟩) := List.get?_eq_get hkub
          simp only [hg]
          by_cases he : pyEq (cub.get ⟨k, hklt⟩) (ub.get ⟨k, hkub⟩) = true
          · rw [if_pos he]
            exact ih (k + 1) (by omega)
          · rw [if_neg he]
            exact ⟨false, rfl⟩
        · rw [dif_neg hklt]
          exact ⟨true, rfl⟩
  exact fun k => key (cub.length - k) k (le_refl _)

theorem sameStruct_isSome {cur pj : Product} (hc : productAligned cur)
    (hp : productAligned pj) : ∃ b, sameStruct cur pj = some b := by
  obtain ⟨cub, hcub, hcl1, hcl2, _⟩ := hc
  obtain ⟨pub, hpub, hpl1, hpl2, _⟩ := hp
  unfold sameStruct
  by_cases hlen : cur.thresholds.length = pj.thresholds.length
  · rw [if_pos hlen]
    by_cases hall : (cur.thresholds.zip pj.thresholds).all
        (fun x => pyEq x.1 x.2) = true
    · rw [if_pos hall, hcub, hpub]
      exact ubEqAux_isSome cub pub (by omega) 0
    · rw [if_neg hall]
      exact ⟨false, rfl⟩
  · rw [if_neg hlen]
    exact ⟨false, rfl⟩

theorem filterDups_good (cur : Product) (hc : productAligned cur) :
    ∀ rest, (∀ q ∈ rest, productAligned q) →
      ∃ l2, filterDups cur rest = some l2 ∧ ∀ q ∈ l2, productAligned q := by
  intro rest
  induction rest with
  | nil => exact fun _ => ⟨[], rfl, by simp⟩
  | cons q qs ih =>
      intro hall
      obtain ⟨b, hb⟩ := sameStruct_isSome hc (hall q (by simp))
      obtain ⟨l2, hl2, hl2a⟩ := ih (fun x hx => hall x (by simp [hx]))
      refine ⟨_, by rw [filterDups, hb, hl2], ?_⟩
      intro x hx
      by_cases hcond : (b && cur.fees == q.fees) = true
      · rw [if_pos hcond] at hx
        exact hl2a x hx
      · rw [if_neg hcond] at hx
        rcases List.mem_cons.mp hx with hx | hx
        · exact hx ▸ hall q (by simp)
        · exact hl2a x hx

theorem mergeIdentical_isSome :
    ∀ (n : ℕ) (l : List Product), l.length ≤ n → (∀ p ∈ l, productAligned p) →
      ∃ out, mergeIdentical l = some out := by
  intro n
  induction n with
  | zero =>
      intro l hl _
      have : l = [] := List.length_eq_zero.mp (by omega)
      subst this
      exact ⟨[], by rw [mergeIdentical]⟩
  | succ n ih =>
      intro l hl hall
      cases l with
      | nil => exact ⟨[], by rw [mergeIdentical]⟩
      | cons p rest =>
          obtain ⟨l2, hl2, hl2a⟩ :=
            filterDups_good p (hall p (by simp)) rest
              (fun q hq => hall q (by simp [hq]))
          have hlen2 := filterDups_length_le p rest l2 hl2
          obtain ⟨out, hout⟩ := ih l2
            (by simp only [List.length_cons] at hl; omega) hl2a
          refine ⟨p :: out, ?_⟩
          rw [mergeIdentical]
          split
          next heq => rw [hl2] at heq; cases heq
          next rest2 heq =>
            rw [hl2] at heq
            injection heq with h2
            subst h2
            simp [hout]

theorem process_multiple_products_isSome (tiers : List Tier) :
    ∃ ps, process_multiple_products tiers = some ps := by
  unfold process_multiple_products
  by_cases hne : tiers.isEmpty = true
  · rw [if_pos hne]; exact ⟨[], rfl⟩
  · rw [if_neg hne]
    have hsched : ∀ s ∈ phase3Schedules (sortTiersByIndex tiers), s ≠ [] := by
      intro s hs
      rw [phase3Schedules, List.mem_map] at hs
      obtain ⟨st, _, rfl⟩ := hs
      rw [Ne, pySortWith_eq_nil_iff]
      exact phase3Loop_ne_nil _ _ _ (by simp)
    obtain ⟨segs, hsegs⟩ := segmentsAll_isSome _ hsched
    rw [hsegs]
    have haligned : ∀ p ∈ segs.flatMap rangeCaseProducts
        ++ leftoverProducts (sortTiersByIndex tiers) segs, productAligned p := by
      intro p hp
      rcases List.mem_append.mp hp with hp | hp
      · rw [List.mem_flatMap] at hp
        obtain ⟨g, _, hpg⟩ := hp
        exact productAligned_rangeCase hpg
      · exact productAligned_leftover hp
    exact mergeIdentical_isSome _ _ (le_refl _) haligned

theorem identifyFromTiers_isSome_valid (tiers : List Tier) :
    ∃ ps, identifyFromTiers tiers = some ps
      ∧ (ps = [] ∨ validate_products ps = true) := by
  unfold identifyFromTiers
  by_cases he : tiers.isEmpty = true
  · rw [if_pos he]; exact ⟨[], rfl, Or.inl rfl⟩
  · rw [if_neg he]
    by_cases h4 : (detect_multiple_fee_schedules tiers
        && !(process_multiple_fee_schedules tiers).isEmpty
        && validate_products (process_multiple_fee_schedules tiers)) = true
    · rw [if_pos h4]
      refine ⟨_, rfl, Or.inr ?_⟩
      simp only [Bool.and_eq_true] at h4
      exact h4.2
    · rw [if_neg h4]
      by_cases h1 : (!(extract_simple_products (sortTiersByLower tiers)).isEmpty
          && validate_products (extract_simple_products (sortTiersByLower tiers)))
          = true
      · rw [if_pos h1]
        refine ⟨_, rfl, Or.inr ?_⟩
        simp only [Bool.and_eq_true] at h1
        exact h1.2
      · rw [if_neg h1]
        by_cases h2 : (!(handle_fee_ranges (sortTiersByLower tiers)).isEmpty
            && validate_products (handle_fee_ranges (sortTiersByLower tiers)))
            = true
        · rw [if_pos h2]
          refine ⟨_, rfl, Or.inr ?_⟩
          simp only [Bool.and_eq_true] at h2
          exact h2.2
        · rw [if_neg h2]
          obtain ⟨p3, hp3⟩ :=
            process_multiple_products_isSome (sortTiersByLower tiers)
          rw [hp3]
          by_cases h3 : (!p3.isEmpty && validate_products p3) = true
          · refine ⟨p3, by simp [h3], Or.inr ?_⟩
            simp only [Bool.and_eq_true] at h3
            exact h3.2
          · exact ⟨[], by simp [h3], Or.inl rfl⟩

theorem reconLastUpper_isSome (ps : List Product) (hne : ps ≠ [])
    (hv : validate_products ps = true) : ∃ lu, reconLastUpper ps = some lu := by
  obtain ⟨lastP, hlast⟩ : ∃ p, ps.getLast? = some p := by
    cases hps : ps.getLast? with
    | none => exact absurd (List.getLast?_eq_none_iff.mp hps) hne
    | some p => exact ⟨p, rfl⟩
  have hmem : lastP ∈ ps := by
    obtain ⟨hx, hx2⟩ := List.mem_getLast?_eq_getLast (Option.mem_def.mpr hlast)
    exact hx2 ▸ List.getLast_mem hx
  obtain ⟨ub, hub, hl1, _, hthne⟩ :=
    ((validate_products_spec ps).mp hv).2 lastP hmem
  have hubne : ub ≠ [] := by
    intro h
    rw [h] at hl1
    simp at hl1
    exact hthne hl1
  obtain ⟨lu, hlu⟩ : ∃ x, ub.getLast? = some x := by
    cases hx : ub.getLast? with
    | none => exact absurd (List.getLast?_eq_none_iff.mp hx) hubne
    | some x => exact ⟨x, rfl⟩
  exact ⟨lu, by unfold reconLastUpper; rw [hlast]; simp [hub, hlu]⟩

theorem reconcile_good (ps : List Product)
    (h : ps = [] ∨ validate_products ps = true) :
    ∃ qs, reconcile ps = some qs ∧ ∀ q ∈ qs, productAligned q := by
  rcases h with h | hv
  · subst h
    exact ⟨[], by rw [reconcile]; simp, by simp⟩
  · have hmem : ∀ q ∈ ps, productAligned q := ((validate_products_spec ps).mp hv).2
    unfold reconcile
    by_cases hlen : ps.length ≤ 1
    · rw [if_pos hlen]
      exact ⟨ps, rfl, hmem⟩
    · rw [if_neg hlen]
      have hne : ps ≠ [] := by
        intro h
        rw [h] at hlen
        simp at hlen
      have hflen := reconAllFees_length ps hv
      rw [if_neg (by omega)]
      have hsl := reconSortedThresholds_length ps hv
      have hsfl : (reconSortedFees ps).length = (reconAllThresholds ps).length := by
        unfold reconSortedFees reconSortedPairs
        rw [List.length_map, pySortWith_length, List.length_zip, hflen,
          Nat.min_self]
      have hstn : reconSortedThresholds ps ≠ [] := by
        intro hx
        have := reconAllThresholds_ne_nil ps hne hv
        rw [hx] at hsl
        exact this (List.length_eq_zero.mp hsl.symm)
      have hn1 : 1 ≤ (reconSortedThresholds ps).length :=
        List.length_pos.mpr hstn
      by_cases hsingle : (if isContinuousSeq (reconSortedThresholds ps) then true
          else feesMonoOKAfterSort (reconSortedFees ps)) = true
      · rw [if_pos hsingle]
        obtain ⟨lu, hlu⟩ := reconLastUpper_isSome ps hne hv
        rw [hlu]
        by_cases hinf : pyEq lu PVal.inf = true
        · refine ⟨[⟨reconSortedThresholds ps,
              some ((reconSortedThresholds ps).tail ++ [PVal.inf]),
              reconSortedFees ps⟩], by simp [hinf], ?_⟩
          intro q hq
          rw [List.mem_singleton] at hq
          subst hq
          refine ⟨_, rfl, ?_, ?_, hstn⟩
          · rw [List.length_append, List.length_tail]
            simp only [List.length_singleton]
            omega
          · rw [List.length_append, List.length_tail]
            simp only [List.length_singleton]
            omega
        · obtain ⟨lastTh, hlth⟩ : ∃ x,
              (reconSortedThresholds ps).getLast? = some x := by
            cases hx : (reconSortedThresholds ps).getLast? with
            | none => exact absurd (List.getLast?_eq_none_iff.mp hx) hstn
            | some x => exact ⟨x, rfl⟩
          refine ⟨[⟨reconSortedThresholds ps,
              some ((reconSortedThresholds ps).tail ++ [pyMul lastTh (PVal.fin 2)]),
              reconSortedFees ps⟩], by simp [hinf, hlth], ?_⟩
          intro q hq
          rw [List.mem_singleton] at hq
          subst hq
          refine ⟨_, rfl, ?_, ?_, hstn⟩
          · rw [List.length_append, List.length_tail]
            simp only [List.length_singleton]
            omega
          · rw [List.length_append, List.length_tail]
            simp only [List.length_singleton]
            omega
      · rw [if_neg hsingle]
        exact ⟨ps, rfl, hmem⟩

/-- C8: for every input record the reconstruction terminates with a
(possibly empty) product list: no modelled IndexError/KeyError path of
`identify_products` is reachable. -/
theorem c8_no_error_path (row : Record) :
    ∃ ps, identify_products row = some ps := by
  obtain ⟨ps, hps, _⟩ := identifyFromTiers_isSome_valid (collect_tiers row)
  exact ⟨ps, hps⟩

/-- C7: for every input record, every product of the final list (after
phase extraction and the reconciliation of `main`) has `thresholds`,
`upper_bounds` and `fees` of equal length, at least 1. -/
theorem c7_length_invariant (row : Record) :
    ∃ ps, pipelineProducts row = some ps
      ∧ ∀ p ∈ ps, ∃ ub, p.upper_bounds = some ub
          ∧ p.thresholds.length = ub.length
          ∧ ub.length = p.fees.length
          ∧ 1 ≤ p.thresholds.length := by
  obtain ⟨ps, hps, hval⟩ := identifyFromTiers_isSome_valid (collect_tiers row)
  obtain ⟨qs, hqs, hal⟩ := reconcile_good ps hval
  refine ⟨qs, ?_, ?_⟩
  · unfold pipelineProducts identify_products
    rw [hps]
    simp [hqs]
  · intro p hp
    obtain ⟨ub, h1, h2, h3, h4⟩ := hal p hp
    exact ⟨ub, h1, h2, h3, List.length_pos.mpr h4⟩

/-! ## Claim C5: the detector characterization -/

/-- The `(lower, upper)` dict key of a tier. -/
def keyOf (t : Tier) : PVal × PVal := (t.lower, t.upper)

/-- A key with no NaN component — the keys Python `==` can match. -/
def keyNonNan (k : PVal × PVal) : Prop :=
  k.1 ≠ PVal.nan ∧ k.2 ≠ PVal.nan

instance (k : PVal × PVal) : Decidable (keyNonNan k) := by
  unfold keyNonNan; infer_instance

theorem pyEq_true_iff {a b : PVal} :
    pyEq a b = true ↔ a = b ∧ a ≠ PVal.nan := by
  cases a <;> cases b <;> simp [pyEq]

theorem pyKeyEq_true_iff {k1 k2 : PVal × PVal} :
    pyKeyEq k1 k2 = true ↔ k1 = k2 ∧ keyNonNan k1 := by
  unfold pyKeyEq keyNonNan
  rw [Bool.and_eq_true, pyEq_true_iff, pyEq_true_iff]
  constructor
  · rintro ⟨⟨h1, h1n⟩, ⟨h2, h2n⟩⟩
    exact ⟨Prod.ext h1 h2, h1n, h2n⟩
  · rintro ⟨h, h1n, h2n⟩
    subst h
    exact ⟨⟨rfl, h1n⟩, rfl, h2n⟩

theorem pyEq_nan_right (a : PVal) : pyEq a PVal.nan = false := by
  cases a <;> rfl

theorem pyEq_symm (a b : PVal) : pyEq a b = pyEq b a := by
  cases a <;> cases b <;> simp [pyEq] <;> exact eq_comm

theorem pyNe_symm (a b : PVal) : pyNe a b = pyNe b a := by
  unfold pyNe; rw [pyEq_symm]

/-- `l` has two positions `i < j` with `p l[i] l[j]`. -/
def listHasPair (p : α → α → Bool) : List α → Bool
  | [] => false
  | x :: xs => xs.any (p x) || listHasPair p xs

theorem listHasPair_iff_decomp (p : α → α → Bool) (l : List α) :
    listHasPair p l = true ↔
      ∃ l1 a l2 b l3, l = l1 ++ a :: l2 ++ b :: l3 ∧ p a b = true := by
  induction l with
  | nil =>
      simp only [listHasPair, Bool.false_eq_true, false_iff]
      rintro ⟨l1, a, l2, b, l3, h, _⟩
      exact absurd h (by simp)
  | cons x xs ih =>
      simp only [listHasPair, Bool.or_eq_true, List.any_eq_true, ih]
      constructor
      · rintro (⟨b, hb, hpb⟩ | ⟨l1, a, l2, b, l3, rfl, hp⟩)
        · obtain ⟨l2, l3, rfl⟩ := List.append_of_mem hb
          exact ⟨[], x, l2, b, l3, rfl, hpb⟩
        · exact ⟨x :: l1, a, l2, b, l3, rfl, hp⟩
      · rintro ⟨l1, a, l2, b, l3, he, hp⟩
        cases l1 with
        | nil =>
            simp only [List.nil_append, List.cons.injEq] at he
            obtain ⟨rfl, rfl⟩ := he
            exact Or.inl ⟨b, by simp, hp⟩
        | cons y l1' =>
            simp only [List.cons_append, List.cons.injEq] at he
            obtain ⟨rfl, rfl⟩ := he
            exact Or.inr ⟨l1', a, l2, b, l3, rfl, hp⟩

theorem any_map_comp (p : β → Bool) (f : α → β) (l : List α) :
    (l.map f).any p = l.any (fun a => p (f a)) := by
  induction l with
  | nil => rfl
  | cons x xs ih => simp only [List.map_cons, List.any_cons, ih]

theorem listHasPair_map (p : β → β → Bool) (f : α → β) (l : List α) :
    listHasPair p (l.map f) = listHasPair (fun a b => p (f a) (f b)) l := by
  induction l with
  | nil => rfl
  | cons x xs ih =>
      simp only [List.map_cons, listHasPair, ih, any_map_comp]

theorem any_of_sublist {p : α → Bool} {g l : List α} (hs : List.Sublist g l)
    (h : g.any p = true) : l.any p = true := by
  rw [List.any_eq_true] at h ⊢
  obtain ⟨x, hx, hpx⟩ := h
  exact ⟨x, hs.mem hx, hpx⟩

theorem listHasPair_of_sublist {p : α → α → Bool} {g l : List α}
    (hs : List.Sublist g l) (h : listHasPair p g = true) :
    listHasPair p l = true := by
  induction hs with
  | slnil => exact h
  | cons y hsub ih =>
      simp only [listHasPair, Bool.or_eq_true]
      exact Or.inr (ih h)
  | cons₂ x hsub ih =>
      simp only [listHasPair, Bool.or_eq_true] at h ⊢
      rcases h with h | h
      · exact Or.inl (any_of_sublist hsub h)
      · exact Or.inr (ih h)

theorem listHasPair_strengthen {p q : α → α → Bool} {l : List α}
    (hq : ∀ a ∈ l, ∀ b ∈ l, q a b = true)
    (h : listHasPair p l = true) :
    listHasPair (fun a b => q a b && p a b) l = true := by
  induction l with
  | nil => exact h
  | cons x xs ih =>
      simp only [listHasPair, Bool.or_eq_true, List.any_eq_true] at h ⊢
      rcases h with ⟨b, hb, hpb⟩ | h
      · exact Or.inl ⟨b, hb,
          by rw [hq x (by simp) b (by simp [hb]), hpb]; rfl⟩
      · exact Or.inr (ih (fun a ha b hb =>
          hq a (by simp [ha]) b (by simp [hb])) h)

/-! ### The Python-set size of a value list -/

theorem mem_foldl_pySetInsert {x : PVal} :
    ∀ (vs s : List PVal), x ∈ s → x ∈ vs.foldl pySetInsert s := by
  intro vs
  induction vs with
  | nil => exact fun s h => h
  | cons v rest ih =>
      intro s h
      refine ih _ ?_
      unfold pySetInsert
      by_cases hc : s.any (fun y => pyEq y v) = true
      · rw [if_pos hc]; exact h
      · rw [if_neg hc]; simp [h]

theorem length_le_foldl_pySetInsert :
    ∀ (vs s : List PVal), s.length ≤ (vs.foldl pySetInsert s).length := by
  intro vs
  induction vs with
  | nil => exact fun s => le_refl _
  | cons v rest ih =>
      intro s
      refine le_trans ?_ (ih (pySetInsert s v))
      unfold pySetInsert
      by_cases hc : s.any (fun y => pyEq y v) = true
      · rw [if_pos hc]
      · rw [if_neg hc]; simp

/-- Count of NaN entries of a list. -/
def countNan (l : List PVal) : ℕ :=
  (l.filter (fun x => x = PVal.nan)).length

theorem countNan_foldl_pySetInsert :
    ∀ (vs s : List PVal),
      countNan (vs.foldl pySetInsert s) = countNan s + countNan vs := by
  intro vs
  induction vs with
  | nil => intro s; simp [countNan]
  | cons v rest ih =>
      intro s
      rw [List.foldl_cons, ih]
      have hstep : countNan (pySetInsert s v) = countNan s
          + countNan [v] := by
        unfold pySetInsert
        by_cases hv : v = PVal.nan
        · subst hv
          rw [if_neg (by simp [pyEq_nan_right])]
          simp [countNan, List.filter_append]
        · by_cases hc : s.any (fun y => pyEq y v) = true
          · rw [if_pos hc]
            simp [countNan, hv]
          · rw [if_neg hc]
            simp [countNan, List.filter_append, hv]
      rw [hstep]
      have hsplit : countNan (v :: rest) = countNan [v] + countNan rest := by
        by_cases hv : v = PVal.nan
        · simp [countNan, List.filter_cons, hv]
          omega
        · simp [countNan, List.filter_cons, hv]
      rw [hsplit]
      omega

theorem countNan_le_length (l : List PVal) : countNan l ≤ l.length :=
  List.length_filter_le _ l

theorem exists_nan_of_countNan_pos {l : List PVal} (h : 1 ≤ countNan l) :
    PVal.nan ∈ l := by
  unfold countNan at h
  obtain ⟨x, hx⟩ := List.exists_mem_of_length_pos h
  have := List.of_mem_filter hx
  have hx' := List.mem_of_mem_filter hx
  simp only [decide_eq_true_eq] at this
  exact this ▸ hx'

theorem exists_pyEq_mem_foldl {v : PVal} (hv : v ≠ PVal.nan) :
    ∀ (vs s : List PVal), v ∈ vs →
      ∃ m ∈ vs.foldl pySetInsert s, pyEq m v = true := by
  intro vs
  induction vs with
  | nil => intro s h; cases h
  | cons u rest ih =>
      intro s h
      rcases List.mem_cons.mp h with rfl | h
      · by_cases hc : s.any (fun y => pyEq y v) = true
        · rw [List.any_eq_true] at hc
          obtain ⟨m, hm, hmv⟩ := hc
          refine ⟨m, ?_, hmv⟩
          rw [List.foldl_cons]
          refine mem_foldl_pySetInsert _ _ ?_
          unfold pySetInsert
          rw [if_pos (by rw [List.any_eq_true]; exact ⟨m, hm, hmv⟩)]
          exact hm
        · refine ⟨v, ?_, pyEq_true_iff.mpr ⟨rfl, hv⟩⟩
          rw [List.foldl_cons]
          refine mem_foldl_pySetInsert _ _ ?_
          unfold pySetInsert
          rw [if_neg hc]
          simp
      · exact ih _ h

theorem two_mem_length {x y : α} {l : List α} (hx : x ∈ l) (hy : y ∈ l)
    (hxy : x ≠ y) : 2 ≤ l.length := by
  cases l with
  | nil => cases hx
  | cons a t =>
      cases t with
      | nil =>
          simp only [List.mem_singleton] at hx hy
          exact absurd (hx.trans hy.symm) hxy
      | cons b u => simp

/-- Two Python-distinct occurrences force the set size above one. -/
theorem setSize_gt_one_of_pair {vs : List PVal}
    (h : listHasPair pyNe vs = true) :
    1 < (vs.foldl pySetInsert []).length := by
  rw [listHasPair_iff_decomp] at h
  obtain ⟨l1, a, l2, b, l3, rfl, hab⟩ := h
  have hamem : a ∈ l1 ++ a :: l2 ++ b :: l3 := by simp
  have hbmem : b ∈ l1 ++ a :: l2 ++ b :: l3 := by simp
  by_cases ha : a = PVal.nan
  · by_cases hb : b = PVal.nan
    · have hcount : 2 ≤ countNan (l1 ++ a :: l2 ++ b :: l3) := by
        subst ha; subst hb
        unfold countNan
        simp [List.filter_append]
        omega
      have := countNan_foldl_pySetInsert (l1 ++ a :: l2 ++ b :: l3) []
      have hle := countNan_le_length ((l1 ++ a :: l2 ++ b :: l3).foldl pySetInsert [])
      have h0 : countNan ([] : List PVal) = 0 := rfl
      rw [h0, Nat.zero_add] at this
      omega
    · have hcount : 1 ≤ countNan (l1 ++ a :: l2 ++ b :: l3) := by
        subst ha
        unfold countNan
        simp [List.filter_append, List.filter_cons, hb]
        omega
      have hctotal := countNan_foldl_pySetInsert (l1 ++ a :: l2 ++ b :: l3) []
      have hnanmem : PVal.nan ∈ (l1 ++ a :: l2 ++ b :: l3).foldl pySetInsert [] := by
        refine exists_nan_of_countNan_pos ?_
        rw [hctotal]
        simpa [countNan] using hcount
      obtain ⟨m, hm, hmv⟩ := exists_pyEq_mem_foldl hb _ [] hbmem
      have hmnan : m ≠ PVal.nan := by
        intro hx
        rw [hx] at hmv
        simp [pyEq] at hmv
      exact two_mem_length hnanmem hm (fun hx => hmnan hx.symm)
  · by_cases hb : b = PVal.nan
    · have hcount : 1 ≤ countNan (l1 ++ a :: l2 ++ b :: l3) := by
        subst hb
        unfold countNan
        simp [List.filter_append, List.filter_cons, ha]
        omega
      have hctotal := countNan_foldl_pySetInsert (l1 ++ a :: l2 ++ b :: l3) []
      have hnanmem : PVal.nan ∈ (l1 ++ a :: l2 ++ b :: l3).foldl pySetInsert [] := by
        refine exists_nan_of_countNan_pos ?_
        rw [hctotal]
        simpa [countNan] using hcount
      obtain ⟨m, hm, hmv⟩ := exists_pyEq_mem_foldl ha _ [] hamem
      have hmnan : m ≠ PVal.nan := by
        intro hx
        rw [hx] at hmv
        simp [pyEq] at hmv
      exact two_mem_length hnanmem hm (fun hx => hmnan hx.symm)
    · obtain ⟨ma, hma, hmav⟩ := exists_pyEq_mem_foldl ha _ [] hamem
      obtain ⟨mb, hmb, hmbv⟩ := exists_pyEq_mem_foldl hb _ [] hbmem
      obtain ⟨hmaa, _⟩ := pyEq_true_iff.mp hmav
      obtain ⟨hmbb, _⟩ := pyEq_true_iff.mp hmbv
      have hane : a ≠ b := by
        intro hx
        subst hx
        unfold pyNe at hab
        rw [Bool.not_eq_true'] at hab
        rw [pyEq_true_iff.mpr ⟨rfl, ha⟩] at hab
        simp at hab
      have hne : ma ≠ mb := by
        rw [hmaa, hmbb]
        exact hane
      exact two_mem_length hma hmb hne

theorem foldl_pySetInsert_const {v : PVal} (hv : pyEq v v = true) :
    ∀ ws : List PVal, (∀ u ∈ ws, u = v) → ws.foldl pySetInsert [v] = [v] := by
  intro ws
  induction ws with
  | nil => intro _; rfl
  | cons u rest ih =>
      intro hall
      have hu : u = v := hall u (by simp)
      rw [List.foldl_cons, hu]
      have hins : pySetInsert [v] v = [v] := by
        unfold pySetInsert
        rw [if_pos (by simp [hv])]
      rw [hins]
      exact ih (fun w hw => hall w (by simp [hw]))

/-- Without a Python-distinct pair the set has at most one member. -/
theorem setSize_le_one_of_no_pair {vs : List PVal}
    (h : listHasPair pyNe vs = false) :
    (vs.foldl pySetInsert []).length ≤ 1 := by
  cases vs with
  | nil => simp
  | cons v rest =>
      simp only [listHasPair, Bool.or_eq_false_iff, List.any_eq_false] at h
      obtain ⟨hhead, _⟩ := h
      cases rest with
      | nil => simp [pySetInsert]
      | cons u rest2 =>
          have hu : pyEq v u = true := by
            have := hhead u (by simp)
            unfold pyNe at this
            simpa using this
          obtain ⟨huv, hvn⟩ := pyEq_true_iff.mp hu
          have hvv : pyEq v v = true := pyEq_true_iff.mpr ⟨rfl, hvn⟩
          have hall : ∀ w ∈ u :: rest2, w = v := by
            intro w hw
            have := hhead w hw
            unfold pyNe at this
            rw [Bool.not_eq_true', Bool.not_eq_false] at this
            exact (pyEq_true_iff.mp this).1.symm
          rw [List.foldl_cons]
          have h1 : pySetInsert [] v = [v] := by
            unfold pySetInsert; simp
          rw [h1, foldl_pySetInsert_const hvv _ hall]
          simp

/-! ### The grouping invariant of `tierGroups` -/

/-- Decomposition of one `insertTierGroup` step: either the tier joins
the first matching group, or no group matches and a fresh singleton
group is appended. -/
theorem insertTierGroup_decomp (gs : List ((PVal × PVal) × List Tier))
    (t : Tier) :
    (∃ pre k g suf, gs = pre ++ (k, g) :: suf
      ∧ pyKeyEq k (keyOf t) = true
      ∧ (∀ kg ∈ pre, pyKeyEq kg.1 (keyOf t) = false)
      ∧ insertTierGroup gs t = pre ++ (k, g ++ [t]) :: suf)
    ∨ ((∀ kg ∈ gs, pyKeyEq kg.1 (keyOf t) = false)
      ∧ insertTierGroup gs t = gs ++ [(keyOf t, [t])]) := by
  induction gs with
  | nil => exact Or.inr ⟨by simp, rfl⟩
  | cons kg rest ih =>
      obtain ⟨k0, g0⟩ := kg
      by_cases hm : pyKeyEq k0 (keyOf t) = true
      · exact Or.inl ⟨[], k0, g0, rest, rfl, hm, by simp,
          by
            unfold insertTierGroup
            rw [if_pos (show pyKeyEq k0 (t.lower, t.upper) = true from hm)]
            rfl⟩
      · rcases ih with ⟨pre, k, g, suf, hgs, hk, hpre, hres⟩ | ⟨hall, hres⟩
        · refine Or.inl ⟨(k0, g0) :: pre, k, g, suf, by simp [hgs], hk, ?_, ?_⟩
          · intro kg' hkg'
            rcases List.mem_cons.mp hkg' with rfl | hkg'
            · simpa using hm
            · exact hpre kg' hkg'
          · unfold insertTierGroup
            rw [if_neg (show ¬ pyKeyEq k0 (t.lower, t.upper) = true from hm),
              hres]
            simp
        · refine Or.inr ⟨?_, ?_⟩
          · intro kg' hkg'
            rcases List.mem_cons.mp hkg' with rfl | hkg'
            · simpa using hm
            · exact hall kg' hkg'
          · unfold insertTierGroup
            rw [if_neg (show ¬ pyKeyEq k0 (t.lower, t.upper) = true from hm),
              hres]
            simp

/-- The full grouping invariant carried through the fold. -/
def GroupsInv (gs : List ((PVal × PVal) × List Tier))
    (processed : List Tier) : Prop :=
  (∀ kg ∈ gs, keyNonNan kg.1 →
    kg.2 = processed.filter (fun t => keyOf t = kg.1))
  ∧ (∀ kg ∈ gs, ¬ keyNonNan kg.1 → ∃ t0, kg.2 = [t0])
  ∧ (∀ t ∈ processed, keyNonNan (keyOf t) → ∃ g, (keyOf t, g) ∈ gs)
  ∧ (gs.map (fun kg => kg.1)).Pairwise
      (fun k1 k2 => keyNonNan k1 → k1 ≠ k2)

theorem groupsInv_step {gs : List ((PVal × PVal) × List Tier)}
    {processed : List Tier} (hinv : GroupsInv gs processed) (t : Tier) :
    GroupsInv (insertTierGroup gs t) (processed ++ [t]) := by
  obtain ⟨h1, h2, h3, h4⟩ := hinv
  rcases insertTierGroup_decomp gs t with
    ⟨pre, k, g, suf, hgs, hk, hpre, hres⟩ | ⟨hall, hres⟩
  · obtain ⟨hkt, hknn⟩ := pyKeyEq_true_iff.mp hk
    have hsufne : ∀ kg ∈ suf, k ≠ kg.1 := by
      have hmap : (gs.map (fun kg => kg.1))
          = pre.map (fun kg => kg.1) ++ k :: suf.map (fun kg => kg.1) := by
        rw [hgs]; simp
      rw [hmap] at h4
      have hp2 := (List.pairwise_append.mp h4).2.1
      rw [List.pairwise_cons] at hp2
      intro kg hkg
      exact hp2.1 kg.1 (List.mem_map_of_mem _ hkg) hknn
    refine ⟨?_, ?_, ?_, ?_⟩
    · intro kg hkg hnn
      rw [hres] at hkg
      rw [List.filter_append]
      rcases List.mem_append.mp hkg with hkg | hkg
      · have hold := h1 kg (by rw [hgs]; exact List.mem_append_left _ hkg) hnn
        have hnot : ¬ (keyOf t = kg.1) := by
          intro hx
          have hnn2 : keyNonNan kg.1 := by rw [← hx, ← hkt]; exact hknn
          have hthis : pyKeyEq kg.1 (keyOf t) = true :=
            pyKeyEq_true_iff.mpr ⟨hx.symm, hnn2⟩
          rw [hpre kg hkg] at hthis
          cases hthis
        rw [hold]
        simp [List.filter_cons, hnot]
      · rcases List.mem_cons.mp hkg with rfl | hkg
        · have hold := h1 (k, g) (by rw [hgs]; simp) hnn
          simp only at hold
          rw [hold]
          simp [List.filter_cons, hkt]
        · have hold := h1 kg
            (by rw [hgs]; exact List.mem_append_right _ (by simp [hkg])) hnn
          have hnot : ¬ (keyOf t = kg.1) := by
            intro hx
            exact hsufne kg hkg (hkt ▸ hx)
          rw [hold]
          simp [List.filter_cons, hnot]
    · intro kg hkg hnn
      rw [hres] at hkg
      rcases List.mem_append.mp hkg with hkg | hkg
      · exact h2 kg (by rw [hgs]; exact List.mem_append_left _ hkg) hnn
      · rcases List.mem_cons.mp hkg with rfl | hkg
        · exact absurd hknn hnn
        · exact h2 kg
            (by rw [hgs]; exact List.mem_append_right _ (by simp [hkg])) hnn
    · intro u hu hunn
      rcases List.mem_append.mp hu with hu | hu
      · obtain ⟨g', hg'⟩ := h3 u hu hunn
        rw [hgs] at hg'
        rw [hres]
        rcases List.mem_append.mp hg' with hg' | hg'
        · exact ⟨g', List.mem_append_left _ hg'⟩
        · rcases List.mem_cons.mp hg' with heq | hg'
          · have : keyOf u = k := congrArg Prod.fst heq
            exact ⟨g ++ [t], by rw [this]; simp⟩
          · exact ⟨g', List.mem_append_right _ (by simp [hg'])⟩
      · rcases List.mem_singleton.mp hu with rfl
        rw [hres]
        exact ⟨g ++ [u], by rw [← hkt]; simp⟩
    · rw [hres]
      rw [hgs] at h4
      simpa using h4
  · refine ⟨?_, ?_, ?_, ?_⟩
    · intro kg hkg hnn
      rw [hres] at hkg
      rw [List.filter_append]
      rcases List.mem_append.mp hkg with hkg | hkg
      · have hold := h1 kg hkg hnn
        have hnot : ¬ (keyOf t = kg.1) := by
          intro hx
          have : pyKeyEq kg.1 (keyOf t) = true :=
            pyKeyEq_true_iff.mpr ⟨hx.symm, hx ▸ hnn⟩
          rw [hall kg hkg] at this
          cases this
        rw [hold]
        simp [List.filter_cons, hnot]
      · rcases List.mem_singleton.mp hkg with rfl
        simp only
        have hfilt : processed.filter (fun u => decide (keyOf u = keyOf t)) = [] := by
          rw [List.filter_eq_nil]
          intro u hu
          simp only [decide_eq_true_eq]
          intro hx
          obtain ⟨g', hg'⟩ := h3 u hu (by rw [hx]; exact hnn)
          have : pyKeyEq (keyOf u) (keyOf t) = true :=
            pyKeyEq_true_iff.mpr ⟨hx, hx ▸ hnn⟩
          rw [hall (keyOf u, g') hg'] at this
          cases this
        rw [hfilt]
        simp [List.filter_cons]
    · intro kg hkg hnn
      rw [hres] at hkg
      rcases List.mem_append.mp hkg with hkg | hkg
      · exact h2 kg hkg hnn
      · rcases List.mem_singleton.mp hkg with rfl
        exact ⟨t, rfl⟩
    · intro u hu hunn
      rw [hres]
      rcases List.mem_append.mp hu with hu | hu
      · obtain ⟨g', hg'⟩ := h3 u hu hunn
        exact ⟨g', List.mem_append_left _ hg'⟩
      · rcases List.mem_singleton.mp hu with rfl
        exact ⟨[u], by simp⟩
    · rw [hres]
      rw [List.map_append, List.pairwise_append]
      refine ⟨h4, by simp, ?_⟩
      intro k1 hk1 k2 hk2 hnn
      simp only [List.map_cons, List.map_nil, List.mem_singleton] at hk2
      subst hk2
      rw [List.mem_map] at hk1
      obtain ⟨kg, hkg, rfl⟩ := hk1
      intro hx
      have : pyKeyEq kg.1 (keyOf t) = true :=
        pyKeyEq_true_iff.mpr ⟨hx, hnn⟩
      rw [hall kg hkg] at this
      cases this

theorem groupsInv_foldl :
    ∀ (tiers : List Tier) (gs : List ((PVal × PVal) × List Tier))
      (processed : List Tier), GroupsInv gs processed →
      GroupsInv (tiers.foldl insertTierGroup gs) (processed ++ tiers) := by
  intro tiers
  induction tiers with
  | nil => intro gs processed h; simpa using h
  | cons t ts ih =>
      intro gs processed h
      have hstep := groupsInv_step h t
      have := ih _ _ hstep
      simpa using this

theorem groupsInv_tierGroups (tiers : List Tier) :
    GroupsInv (tierGroups tiers) tiers := by
  have := groupsInv_foldl tiers [] []
    ⟨by simp, by simp, by simp, by simp⟩
  simpa [tierGroups] using this

/-- Check 1 as the claim words it: two positions sharing an identical
`(lower, upper)` pair whose `fee_min`s differ (Python `!=`). -/
def claimSignal1 (tiers : List Tier) : Bool :=
  listHasPair (fun t u =>
    pyKeyEq (keyOf t) (keyOf u) && pyNe t.fee_min u.fee_min) tiers

theorem feeSet_eq_foldl (g : List Tier) :
    feeSet g = (g.map (·.fee_min)).foldl pySetInsert [] := by
  unfold feeSet
  rw [List.foldl_map]

theorem detectCheck1_iff_claimSignal1 (tiers : List Tier) :
    detectCheck1 tiers = true ↔ claimSignal1 tiers = true := by
  obtain ⟨h1, h2, h3, _⟩ := groupsInv_tierGroups tiers
  constructor
  · intro h
    unfold detectCheck1 at h
    rw [List.any_eq_true] at h
    obtain ⟨kg, hkg, hcond⟩ := h
    simp only [Bool.and_eq_true, decide_eq_true_eq] at hcond
    obtain ⟨hglen, hgset⟩ := hcond
    have hnn : keyNonNan kg.1 := by
      by_contra hnn
      obtain ⟨t0, ht0⟩ := h2 kg hkg hnn
      rw [ht0] at hglen
      simp at hglen
    have hfilt := h1 kg hkg hnn
    have hpairfees : listHasPair pyNe (kg.2.map (·.fee_min)) = true := by
      by_contra hx
      rw [Bool.not_eq_true] at hx
      have := setSize_le_one_of_no_pair hx
      rw [← feeSet_eq_foldl] at this
      omega
    rw [listHasPair_map] at hpairfees
    have hq : ∀ a ∈ kg.2, ∀ b ∈ kg.2,
        pyKeyEq (keyOf a) (keyOf b) = true := by
      intro a ha b hb
      rw [hfilt] at ha hb
      have ha' := List.of_mem_filter ha
      have hb' := List.of_mem_filter hb
      simp only [decide_eq_true_eq] at ha' hb'
      rw [ha', hb']
      exact pyKeyEq_true_iff.mpr ⟨rfl, hnn⟩
    have hstrong := listHasPair_strengthen hq hpairfees
    unfold claimSignal1
    refine listHasPair_of_sublist ?_ hstrong
    rw [hfilt]
    exact List.filter_sublist tiers
  · intro h
    unfold claimSignal1 at h
    rw [listHasPair_iff_decomp] at h
    obtain ⟨l1, a, l2, b, l3, hdec, hp⟩ := h
    rw [Bool.and_eq_true] at hp
    obtain ⟨hkey, hfee⟩ := hp
    obtain ⟨hkab, hknn⟩ := pyKeyEq_true_iff.mp hkey
    obtain ⟨g, hg⟩ := h3 a (by rw [hdec]; simp) hknn
    have hfilt := h1 (keyOf a, g) hg hknn
    simp only at hfilt
    have hmatcha : decide (keyOf a = keyOf a) = true := by simp
    have hmatchb : decide (keyOf b = keyOf a) = true := by
      simp [← hkab]
    have hgdec : g = l1.filter (fun t => decide (keyOf t = keyOf a))
        ++ a :: (l2.filter (fun t => decide (keyOf t = keyOf a))
        ++ b :: l3.filter (fun t => decide (keyOf t = keyOf a))) := by
      rw [hfilt, hdec]
      simp only [List.filter_append, List.filter_cons, hmatcha, hmatchb]
      simp
    unfold detectCheck1
    rw [List.any_eq_true]
    refine ⟨(keyOf a, g), hg, ?_⟩
    simp only [Bool.and_eq_true, decide_eq_true_eq]
    constructor
    · rw [hgdec]
      simp only [List.length_append, List.length_cons]
      omega
    · rw [feeSet_eq_foldl]
      refine setSize_gt_one_of_pair ?_
      rw [listHasPair_iff_decomp]
      refine ⟨(l1.filter (fun t => decide (keyOf t = keyOf a))).map (·.fee_min),
        a.fee_min,
        (l2.filter (fun t => decide (keyOf t = keyOf a))).map (·.fee_min),
        b.fee_min,
        (l3.filter (fun t => decide (keyOf t = keyOf a))).map (·.fee_min),
        ?_, hfee⟩
      rw [hgdec]
      simp

/-- C5: the detector returns false on tier sets of size at most one and
otherwise fires iff one of the four signals holds — a repeated
`(lower, upper)` bracket with differing `fee_min`, an adjacent
index-order pair with non-increasing `lower`, more than one
`lower == upper == 0` tier, or an adjacent lower-order pair with
increasing `fee_min`. -/
theorem c5_detector_iff (tiers : List Tier) :
    detect_multiple_fee_schedules tiers = true ↔
      2 ≤ tiers.length ∧
        (claimSignal1 tiers = true ∨ detectCheck2 tiers = true
          ∨ detectCheck3 tiers = true ∨ detectCheck4 tiers = true) := by
  unfold detect_multiple_fee_schedules
  by_cases hlen : tiers.length ≤ 1
  · rw [if_pos hlen]
    simp only [Bool.false_eq_true, false_iff]
    rintro ⟨h2, _⟩
    omega
  · rw [if_neg hlen]
    simp only [Bool.or_eq_true]
    rw [detectCheck1_iff_claimSignal1]
    constructor
    · rintro (((h | h) | h) | h)
      · exact ⟨by omega, Or.inl h⟩
      · exact ⟨by omega, Or.inr (Or.inl h)⟩
      · exact ⟨by omega, Or.inr (Or.inr (Or.inl h))⟩
      · exact ⟨by omega, Or.inr (Or.inr (Or.inr h))⟩
    · rintro ⟨_, (h | h | h | h)⟩
      · exact Or.inl (Or.inl (Or.inl h))
      · exact Or.inl (Or.inl (Or.inr h))
      · exact Or.inl (Or.inr h)
      · exact Or.inr h
